import Mathlib

/-!
# Naughts and crosses: the game engine and its negamax search

A shallow embedding of `naughts_and_crosses.hpp` / `naughts_and_crosses.cpp`
(class `NaughtsAndCrosses`) and of the play loop of `main.cpp`.

* The object state is the structure `NaughtsAndCrosses`; every member function
  that changes the object takes the state and returns the new one.
* `std::array<std::array<int, 3>, 3>` is `Fin 3 → Fin 3 → Int`.
* `std::vector` is `List`; `push_back` appends at the end, `back` is the last
  element.
* `uint16_t` bitboards are `Nat`.  Every value the program stores in them is
  built from `1 << i` with `i < 9`, and `0x1ff ^ (a | b)` of two 16-bit values
  is a 16-bit value, so no store is ever truncated.
* `int` is `Int`.  The program only multiplies the player by `-1` and by the
  result of `evaluate`, negates scores and compares them.
* Undefined behaviour (indexing `m_board` outside the array, `back()` on an
  empty vector, indexing a vector past its end) is the result `none`.
-/

namespace NaughtsAndCrosses

/-- The type `Board_t` of the header: a 3x3 array of `int`. -/
abbrev Board_t := Fin 3 → Fin 3 → Int

/-- Marker of the first player, `static const int naught = -1`. -/
def naught : Int := -1

/-- Marker of the second player, `static const int cross = 1`. -/
def cross : Int := 1

end NaughtsAndCrosses

/-- The data members of class `NaughtsAndCrosses`. -/
structure NaughtsAndCrosses where
  m_board : NaughtsAndCrosses.Board_t
  m_history : List NaughtsAndCrosses.Board_t
  m_naughts : Nat
  m_crosses : Nat
  m_candidates : List Nat
  m_player : Int

namespace NaughtsAndCrosses

/-- The default-initialised object: `m_board {}`, `m_history {}`, both
bitboards `0`, an empty `m_candidates`, and `m_player = naught`. -/
def init_state : NaughtsAndCrosses :=
  { m_board := fun _ _ => 0
    m_history := []
    m_naughts := 0
    m_crosses := 0
    m_candidates := []
    m_player := naught }

/-- The read `m_board[i/3][i % 3]`.  Both loops of the program that use it run
over `i < 9`; for other `i` the read is outside the array and the value given
here is never used. -/
def cell (b : Board_t) (i : Nat) : Int :=
  if h : i < 9 then b ⟨i / 3, by omega⟩ ⟨i % 3, by omega⟩ else 0

/-- The store `m_board[r][c] = v`. -/
def set_cell (b : Board_t) (r c : Fin 3) (v : Int) : Board_t :=
  fun i j => if i = r ∧ j = c then v else b i j

/-- The body of the loop of `update_bitboards` for square `i`, acting on the
pair `(m_naughts, m_crosses)`. -/
def bitboards_step (b : Board_t) (acc : Nat × Nat) (i : Nat) : Nat × Nat :=
  if cell b i = naught then (acc.1 ||| (1 <<< i), acc.2)
  else if cell b i = cross then (acc.1, acc.2 ||| (1 <<< i))
  else acc

/-- The loop of `update_bitboards`, started from `m_naughts = m_crosses = 0`:
the pair `(m_naughts, m_crosses)` it leaves behind. -/
def bitboards_of (b : Board_t) : Nat × Nat :=
  (List.range 9).foldl (bitboards_step b) (0, 0)

/-- The accessor `current_player()`. -/
def current_player (g : NaughtsAndCrosses) : Int := g.m_player

/-- The accessor `candidates()`. -/
def candidates (g : NaughtsAndCrosses) : List Nat := g.m_candidates

/-- The member `update_bitboards()`. -/
def update_bitboards (g : NaughtsAndCrosses) : NaughtsAndCrosses :=
  { g with
    m_naughts := (bitboards_of g.m_board).1
    m_crosses := (bitboards_of g.m_board).2 }

/-- The body of the loop of `generate_moves` for bit `pos` of `available`. -/
def moves_step (available : Nat) (acc : List Nat) (pos : Nat) : List Nat :=
  if available &&& (1 <<< pos) ≠ 0 then acc ++ [pos] else acc

/-- The loop of `generate_moves` over the mask `available`, started from the
cleared list. -/
def moves_of_mask (available : Nat) : List Nat :=
  (List.range 9).foldl (moves_step available) []

/-- The member `generate_moves()`. -/
def generate_moves (g : NaughtsAndCrosses) : NaughtsAndCrosses :=
  { g with m_candidates := moves_of_mask (0x1ff ^^^ (g.m_naughts ||| g.m_crosses)) }

/-- The condition of each `if` of `evaluate`, for one bitboard: the eight mask
tests joined by `|`. -/
def line_test (x : Nat) : Bool :=
  ((x &&& 0x7) == 0x7) || ((x &&& 0x38) == 0x38)
    || ((x &&& 0x1c0) == 0x1c0) || ((x &&& 0x49) == 0x49)
    || ((x &&& 0x92) == 0x92) || ((x &&& 0x124) == 0x124)
    || ((x &&& 0x111) == 0x111) || ((x &&& 0x54) == 0x54)

/-- The member `evaluate()`. -/
def evaluate (g : NaughtsAndCrosses) : Int :=
  if line_test g.m_naughts then naught
  else if line_test g.m_crosses then cross
  else 0

/-- The member `make_move(position)`.  The store into `m_board` is inside the
array exactly when `position / 3 < 3`. -/
def make_move (g : NaughtsAndCrosses) (position : Nat) : Option NaughtsAndCrosses :=
  if h : position / 3 < 3 then
    let g1 : NaughtsAndCrosses := { g with m_history := g.m_history ++ [g.m_board] }
    let g2 : NaughtsAndCrosses :=
      { g1 with
        m_board := set_cell g1.m_board ⟨position / 3, h⟩
          ⟨position % 3, Nat.mod_lt _ (by decide)⟩ g1.m_player }
    let g3 := update_bitboards g2
    some { g3 with m_player := g3.m_player * -1 }
  else none

/-- The member `undo_move()`.  `m_history.back()` needs a non-empty vector. -/
def undo_move (g : NaughtsAndCrosses) : Option NaughtsAndCrosses :=
  match g.m_history.getLast? with
  | none => none
  | some top =>
    let g1 : NaughtsAndCrosses := { g with m_board := top }
    let g2 : NaughtsAndCrosses := { g1 with m_history := g1.m_history.dropLast }
    let g3 := update_bitboards g2
    some { g3 with m_player := g3.m_player * -1 }

/-- The `for` loop of `negamax` over the rest of `move_list`, with the running
`max`; `recurse` is the call `negamax(depth - 1)`. -/
def negamax_loop (recurse : NaughtsAndCrosses → Option (Int × NaughtsAndCrosses)) :
    List Nat → Int → NaughtsAndCrosses → Option (Int × NaughtsAndCrosses)
  | [], max, g => some (max, g)
  | m :: rest, max, g =>
    match make_move g m with
    | none => none
    | some g1 =>
      match recurse g1 with
      | none => none
      | some (r, g2) =>
        let score := -r
        let max1 := if max < score then score else max
        match undo_move g2 with
        | none => none
        | some g3 => negamax_loop recurse rest max1 g3

/-- The member `negamax(depth)`: the returned score and the state left behind. -/
def negamax : Nat → NaughtsAndCrosses → Option (Int × NaughtsAndCrosses)
  | 0, g => some (current_player g * evaluate g, g)
  | depth + 1, g =>
    let position_score := current_player g * evaluate g
    if position_score ≠ 0 then some (position_score, g)
    else
      let g1 := generate_moves g
      negamax_loop (negamax depth) g1.m_candidates (-1) g1

/-- The `for` loop of `select_move` from index `i` on, over the rest of
`move_list`, with the running `max` and `max_index`; it yields the final
`max_index`. -/
def select_loop (depth : Nat) :
    List Nat → Nat → Int → Nat → NaughtsAndCrosses → Option (Nat × NaughtsAndCrosses)
  | [], _, _, max_index, g => some (max_index, g)
  | m :: rest, i, max, max_index, g =>
    match make_move g m with
    | none => none
    | some g1 =>
      match negamax (depth - 1) g1 with
      | none => none
      | some (r, g2) =>
        let score := -r
        let max1 := if max < score then score else max
        let max_index1 := if max < score then i else max_index
        match undo_move g2 with
        | none => none
        | some g3 => select_loop depth rest (i + 1) max1 max_index1 g3

/-- The member `select_move()`: the returned square and the state left behind.
The final `move_list[max_index]` is inside the vector only when it has an
element at `max_index`. -/
def select_move (g : NaughtsAndCrosses) : Option (Nat × NaughtsAndCrosses) :=
  let move_list := g.m_candidates
  let depth := move_list.length
  match select_loop depth move_list 0 (-1) 0 g with
  | none => none
  | some (max_index, g1) =>
    let g2 := generate_moves g1
    match move_list[max_index]? with
    | none => none
    | some m => some (m, g2)

/-! ## Vocabulary of the specification -/

/-- The eight geometric lines of the 3x3 grid, as lists of square indices
(`index = row * 3 + column`): three rows, three columns, two diagonals. -/
def lines : List (List Nat) :=
  [[0, 1, 2], [3, 4, 5], [6, 7, 8], [0, 3, 6], [1, 4, 7], [2, 5, 8], [0, 4, 8], [2, 4, 6]]

/-- The occupancy set `x` contains all three squares of some line. -/
def contains_line (x : Nat) : Prop := ∃ l ∈ lines, ∀ i ∈ l, x.testBit i = true

/-- Boolean form of `contains_line`. -/
def line_bits (x : Nat) : Bool := lines.any (fun l => l.all (fun i => x.testBit i))

/-- The squares of the grid that are empty, in ascending order. -/
def empty_squares (b : Board_t) : List Nat :=
  (List.range 9).filter (fun i => decide (cell b i = 0))

/-- Every cell of the grid holds `-1`, `0` or `+1`. -/
def cells_ok (b : Board_t) : Prop := ∀ r c, b r c = -1 ∨ b r c = 0 ∨ b r c = 1

/-- The bitboards are the ones `update_bitboards` derives from the grid. -/
def consistent (g : NaughtsAndCrosses) : Prop :=
  g.m_naughts = (bitboards_of g.m_board).1 ∧ g.m_crosses = (bitboards_of g.m_board).2

/-- The grid after square `m` has been given the marker `p`. -/
def board_after (b : Board_t) (m : Nat) (p : Int) : Board_t :=
  if h : m / 3 < 3 then set_cell b ⟨m / 3, h⟩ ⟨m % 3, Nat.mod_lt _ (by decide)⟩ p else b

/-- The nine cells of a grid in row-major order. -/
def cells (b : Board_t) : List Int := (List.range 9).map (cell b)

/-- A run of `make_move` calls, one per listed square. -/
def play_moves : List Nat → NaughtsAndCrosses → Option NaughtsAndCrosses
  | [], g => some g
  | m :: rest, g =>
    match make_move g m with
    | none => none
    | some g1 => play_moves rest g1

/-- States reachable from the initial object through the mutating members
`make_move` (any square index `0..8`), `undo_move` (defined behaviour only, so
with a non-empty history), `update_bitboards` and `generate_moves`. -/
inductive Reachable : NaughtsAndCrosses → Prop
  | init : Reachable init_state
  | make (g g1 : NaughtsAndCrosses) (p : Nat) :
      Reachable g → p < 9 → make_move g p = some g1 → Reachable g1
  | undo (g g1 : NaughtsAndCrosses) : Reachable g → undo_move g = some g1 → Reachable g1
  | update (g : NaughtsAndCrosses) : Reachable g → Reachable (update_bitboards g)
  | generate (g : NaughtsAndCrosses) : Reachable g → Reachable (generate_moves g)

/-- The fixture grid `[A,B,A],[_,A,B],[B,B,_]` with `A = -1`, `B = +1`. -/
def fixture_board : Board_t :=
  fun r c => ([[-1, 1, -1], [0, -1, 1], [1, 1, 0]].getD r.val []).getD c.val 0

/-- The fixture position: the fixture grid, bitboards recomputed from it,
player `A = -1` to move. -/
def fixture : NaughtsAndCrosses :=
  update_bitboards { init_state with m_board := fixture_board, m_player := naught }

/-- The invariant of the reachable states: bitboards derived from the grid,
every cell of the grid and of every saved grid in `{-1, 0, +1}`, and the player
to move in `{-1, +1}`. -/
def well_formed (g : NaughtsAndCrosses) : Prop :=
  consistent g ∧ cells_ok g.m_board ∧ (∀ h ∈ g.m_history, cells_ok h) ∧
    (g.m_player = -1 ∨ g.m_player = 1)

/-! ## The search as a function of grid and player -/

/-- The value of `evaluate()` when the bitboards are the ones derived from `b`. -/
def board_score (b : Board_t) : Int :=
  if line_test (bitboards_of b).1 then naught
  else if line_test (bitboards_of b).2 then cross
  else 0

/-- The list `generate_moves()` stores when the bitboards are the ones derived
from `b`. -/
def board_moves (b : Board_t) : List Nat :=
  moves_of_mask (0x1ff ^^^ ((bitboards_of b).1 ||| (bitboards_of b).2))

/-- The update `if (max < score) max = score;` of both search loops. -/
def max_step (max score : Int) : Int := if max < score then score else max

/-- The score returned by `negamax(depth)`, read off the grid and the player to
move: the same recursion without the object state. -/
def negamax_value : Nat → Board_t → Int → Int
  | 0, b, p => p * board_score b
  | d + 1, b, p =>
    if p * board_score b ≠ 0 then p * board_score b
    else
      (board_moves b).foldl
        (fun max m => max_step max (- negamax_value d (board_after b m p) (p * -1)))
        (-1)

/-- The final `max_index` of the loop of `select_move`, run over the list of
scores from index `i` on. -/
def select_index : List Int → Nat → Int → Nat → Nat
  | [], _, _, max_index => max_index
  | score :: rest, i, max, max_index =>
    if max < score then select_index rest (i + 1) score i
    else select_index rest (i + 1) max max_index

/-- The score the loop of `select_move` gives candidate `c` when the search
depth is `n`: `-negamax(n - 1)` on the state after `make_move(c)`. -/
def move_score (n : Nat) (g : NaughtsAndCrosses) (c : Nat) : Option Int :=
  match make_move g c with
  | none => none
  | some g1 =>
    match negamax (n - 1) g1 with
    | none => none
    | some (r, _) => some (-r)

/-- The state reached from the initial object by the listed moves, with the
candidate list refreshed by `generate_moves` (the initial object itself if a
listed square is outside the grid). -/
def state_after (ms : List Nat) : NaughtsAndCrosses :=
  match play_moves ms init_state with
  | some g => generate_moves g
  | none => init_state

/-! ## The reference value of a position -/

/-- Some geometric line of the grid holds the marker `p` on all three squares. -/
def holds_line (b : Board_t) (p : Int) : Bool :=
  lines.any (fun l => l.all (fun i => decide (cell b i = p)))

/-- The player who holds a complete line, `0` if nobody does; naught is looked
at first, as in `evaluate`. -/
def winner (b : Board_t) : Int :=
  if holds_line b naught then naught
  else if holds_line b cross then cross
  else 0

/-- The greatest element of a non-empty list (`0` for the empty list). -/
def list_max : List Int → Int
  | [] => 0
  | x :: xs => xs.foldl max x

/-- One unfolding of the reference function `V` of the specification, with
`value` standing for `V` on the positions one move later: `player * winner` if
a line is complete, `0` on a full board without a line, and otherwise the
maximum over the empty squares `s` of `-value` of the position after the
player to move marks `s` and the turn passes. -/
def V_body (value : Board_t → Int → Int) (b : Board_t) (p : Int) : Int :=
  if winner b ≠ 0 then p * winner b
  else if empty_squares b = [] then 0
  else list_max ((empty_squares b).map (fun s => - value (board_after b s p) (-p)))

/-- The reference function `V` with a bound `k` on the number of moves still
looked at. -/
def V_fuel : Nat → Board_t → Int → Int
  | 0, b, p => V_body (fun _ _ => 0) b p
  | k + 1, b, p => V_body (V_fuel k) b p

/-- The reference function `V` of the specification: the game-theoretic value
of the position for the player to move.  The bound is the number of empty
squares, which is the length of the longest continuation. -/
def V (b : Board_t) (p : Int) : Int := V_fuel (empty_squares b).length b p

/-- The player `w` can force a win from the grid `b` with `p` to move: `w`
already holds a line; or no line is complete, it is the turn of `w` and some
empty square leads to a position from which `w` can force a win; or no line is
complete, it is the turn of the other player, an empty square is left, and
every empty square leads to such a position. -/
inductive Forces (w : Int) : Board_t → Int → Prop
  | line (b : Board_t) (p : Int) : winner b = w → w ≠ 0 → Forces w b p
  | own_move (b : Board_t) (p : Int) (s : Nat) :
      winner b = 0 → p = w → s ∈ empty_squares b →
      Forces w (board_after b s p) (-p) → Forces w b p
  | other_move (b : Board_t) (p : Int) :
      winner b = 0 → p ≠ w → empty_squares b ≠ [] →
      (∀ s ∈ empty_squares b, Forces w (board_after b s p) (-p)) → Forces w b p

/-! ## Bounds on the value of a position, computed on the bitboards -/

/-- The pair (bitboard of the player to move, bitboard of the other player)
derived from the grid. -/
def side_bits (b : Board_t) (p : Int) : Nat × Nat :=
  if p = naught then ((bitboards_of b).1, (bitboards_of b).2)
  else ((bitboards_of b).2, (bitboards_of b).1)

/-- Evaluates the number `n` before it is handed to `f`. -/
def force {α : Type} (n : Nat) (f : Nat → α) : α :=
  match n with
  | 0 => f 0
  | k + 1 => f (k + 1)

/-- A checker for one-sided bounds on the search value, `d` moves deep, for the
player to move holding the squares `me` against `opp`.  With `true` it looks
for one move after which the other player cannot win (value at least `0`); with
`false` it checks that after every move the other player can hold (value at
most `0`). -/
def value_bound : Nat → Bool → Nat → Nat → Bool
  | 0, true, _, opp => !line_test opp
  | 0, false, me, _ => !line_test me
  | d + 1, true, me, opp =>
    if line_test opp then false
    else if line_test me then true
    else force (0x1ff ^^^ (me ||| opp)) (fun avail =>
      [4, 0, 2, 6, 8, 1, 3, 5, 7].any (fun m =>
        (avail &&& (1 <<< m) != 0) &&
          force (me ||| 1 <<< m) (fun x => value_bound d false opp x)))
  | d + 1, false, me, opp =>
    if line_test me then false
    else if line_test opp then true
    else force (0x1ff ^^^ (me ||| opp)) (fun avail =>
      [0, 1, 2, 3, 4, 5, 6, 7, 8].all (fun m =>
        (avail &&& (1 <<< m) == 0) ||
          force (me ||| 1 <<< m) (fun x => value_bound d true opp x)))

/-! ## Games against the automated player -/

/-- The positions of a game from the initial object in which the side `auto`
moves as `main.cpp` moves the computer (`generate_moves()`, then
`make_move(select_move())`) and the other side marks any candidate square
after `generate_moves()`.  No move is made once `evaluate()` is non-zero or
when no empty square is left. -/
inductive GamePlay (auto : Int) : NaughtsAndCrosses → Prop
  | start : GamePlay auto init_state
  | opponent_move (g g1 : NaughtsAndCrosses) (p : Nat) :
      GamePlay auto g → evaluate g = 0 → current_player g ≠ auto →
      p ∈ candidates (generate_moves g) → make_move (generate_moves g) p = some g1 →
      GamePlay auto g1
  | automated_move (g g1 g2 : NaughtsAndCrosses) (c : Nat) :
      GamePlay auto g → evaluate g = 0 → current_player g = auto →
      candidates (generate_moves g) ≠ [] →
      select_move (generate_moves g) = some (c, g1) → make_move g1 c = some g2 →
      GamePlay auto g2

/-- The invariant of such a game: the state is well formed and the search
value of the position, seen from the side `auto`, is not negative. -/
def not_losing (auto : Int) (g : NaughtsAndCrosses) : Prop :=
  well_formed g ∧
    0 ≤ auto * g.m_player *
      negamax_value (empty_squares g.m_board).length g.m_board g.m_player

/-! ## Concrete positions -/

/-- The grid with the given rows (cells that are not listed hold `0`). -/
def board_of_rows (rows : List (List Int)) : Board_t :=
  fun r c => (rows.getD r.val []).getD c.val 0

/-- The object holding the given grid, with bitboards recomputed from it, an
empty history, an empty candidate list and the given player to move. -/
def state_of_rows (rows : List (List Int)) (player : Int) : NaughtsAndCrosses :=
  update_bitboards { init_state with m_board := board_of_rows rows, m_player := player }

/-- A full grid without a complete line: `O X O / O X X / X O O`. -/
def drawn_rows : List (List Int) := [[-1, 1, -1], [-1, 1, 1], [1, -1, -1]]

/-- A full grid on which naughts hold the top row. -/
def decided_rows : List (List Int) := [[-1, -1, -1], [1, 1, -1], [1, -1, 1]]

/-! ## Legal play and the calls made by the search -/

/-- States reached from the initial object by legal play: every `make_move`
marks a square in `0..8` that is empty, and none is made once `evaluate()` is
non-zero; `generate_moves()` may be called in between. -/
inductive LegalPlay : NaughtsAndCrosses → Prop
  | init : LegalPlay init_state
  | move (g g1 : NaughtsAndCrosses) (p : Nat) :
      LegalPlay g → evaluate g = 0 → p < 9 → cell g.m_board p = 0 →
      make_move g p = some g1 → LegalPlay g1
  | generate (g : NaughtsAndCrosses) : LegalPlay g → LegalPlay (generate_moves g)

/-- A call of `make_move` or `undo_move` made during a search, with the state
of the object at the moment of the call. -/
inductive Call where
  | make (position : Nat) (before : NaughtsAndCrosses)
  | undo (before : NaughtsAndCrosses)

/-- The call stays inside defined behaviour and the rules of the game:
`make_move` gets a square in `0..8` that is empty (so the grid is not full),
`undo_move` finds a non-empty history. -/
def call_ok : Call → Prop
  | Call.make position before =>
      position < 9 ∧ cell before.m_board position = 0 ∧ empty_squares before.m_board ≠ []
  | Call.undo before => before.m_history ≠ []

/-- The loop of `negamax` as in `negamax_loop`, which also lists the calls of
`make_move` and `undo_move` in the order they are made. -/
def negamax_loop_calls
    (recurse : NaughtsAndCrosses → Option (Int × NaughtsAndCrosses × List Call)) :
    List Nat → Int → NaughtsAndCrosses → Option (Int × NaughtsAndCrosses × List Call)
  | [], max, g => some (max, g, [])
  | m :: rest, max, g =>
    match make_move g m with
    | none => none
    | some g1 =>
      match recurse g1 with
      | none => none
      | some (r, g2, calls1) =>
        let score := -r
        let max1 := if max < score then score else max
        match undo_move g2 with
        | none => none
        | some g3 =>
          match negamax_loop_calls recurse rest max1 g3 with
          | none => none
          | some (v, g4, calls2) =>
            some (v, g4, Call.make m g :: calls1 ++ Call.undo g2 :: calls2)

/-- The member `negamax(depth)` as in `negamax`, which also lists the calls of
`make_move` and `undo_move` it makes. -/
def negamax_calls : Nat → NaughtsAndCrosses → Option (Int × NaughtsAndCrosses × List Call)
  | 0, g => some (current_player g * evaluate g, g, [])
  | depth + 1, g =>
    let position_score := current_player g * evaluate g
    if position_score ≠ 0 then some (position_score, g, [])
    else
      let g1 := generate_moves g
      negamax_loop_calls (negamax_calls depth) g1.m_candidates (-1) g1

/-! ## Bit-level facts -/

theorem testBit_one_shl (i j : Nat) : (1 <<< i).testBit j = decide (i = j) := by
  rw [Nat.one_shiftLeft, Nat.testBit_two_pow]

theorem and_one_shl_ne_zero (x i : Nat) : x &&& (1 <<< i) ≠ 0 ↔ x.testBit i = true := by
  constructor
  · intro h
    by_contra hb
    apply h
    apply Nat.eq_of_testBit_eq
    intro j
    rw [Nat.testBit_and, testBit_one_shl, Nat.zero_testBit]
    by_cases hij : i = j
    · subst hij; simp [hb]
    · simp [hij]
  · intro hb h
    have := congrArg (fun y => y.testBit i) h
    simp [Nat.testBit_and, testBit_one_shl, hb] at this

theorem land_eq_iff (x m : Nat) :
    x &&& m = m ↔ ∀ i, m.testBit i = true → x.testBit i = true := by
  constructor
  · intro h i hi
    have := congrArg (fun y => y.testBit i) h
    simp only [Nat.testBit_and, hi, Bool.and_true] at this
    exact this
  · intro h
    apply Nat.eq_of_testBit_eq
    intro i
    rw [Nat.testBit_and]
    cases hm : m.testBit i
    · simp
    · simp [h i hm]

theorem mask_test (x a b c : Nat) :
    ((x &&& (1 <<< a ||| 1 <<< b ||| 1 <<< c)) == (1 <<< a ||| 1 <<< b ||| 1 <<< c))
      = (x.testBit a && x.testBit b && x.testBit c) := by
  rw [Bool.eq_iff_iff, beq_iff_eq, land_eq_iff]
  simp only [Nat.testBit_or, testBit_one_shl, Bool.or_eq_true, decide_eq_true_eq,
    Bool.and_eq_true]
  constructor
  · intro h
    exact ⟨⟨h a (Or.inl (Or.inl rfl)), h b (Or.inl (Or.inr rfl))⟩, h c (Or.inr rfl)⟩
  · rintro ⟨⟨ha, hb⟩, hc⟩ i (( rfl | rfl) | rfl) <;> assumption

theorem line_bits_iff (x : Nat) : line_bits x = true ↔ contains_line x := by
  simp only [line_bits, contains_line, List.any_eq_true, List.all_eq_true]

theorem line_test_eq_line_bits (x : Nat) : line_test x = line_bits x := by
  have h1 : ((x &&& 0x7) == 0x7) = (x.testBit 0 && x.testBit 1 && x.testBit 2) :=
    mask_test x 0 1 2
  have h2 : ((x &&& 0x38) == 0x38) = (x.testBit 3 && x.testBit 4 && x.testBit 5) :=
    mask_test x 3 4 5
  have h3 : ((x &&& 0x1c0) == 0x1c0) = (x.testBit 6 && x.testBit 7 && x.testBit 8) :=
    mask_test x 6 7 8
  have h4 : ((x &&& 0x49) == 0x49) = (x.testBit 0 && x.testBit 3 && x.testBit 6) :=
    mask_test x 0 3 6
  have h5 : ((x &&& 0x92) == 0x92) = (x.testBit 1 && x.testBit 4 && x.testBit 7) :=
    mask_test x 1 4 7
  have h6 : ((x &&& 0x124) == 0x124) = (x.testBit 2 && x.testBit 5 && x.testBit 8) :=
    mask_test x 2 5 8
  have h7 : ((x &&& 0x111) == 0x111) = (x.testBit 0 && x.testBit 4 && x.testBit 8) :=
    mask_test x 0 4 8
  have h8 : ((x &&& 0x54) == 0x54) = (x.testBit 2 && x.testBit 4 && x.testBit 6) :=
    mask_test x 2 4 6
  unfold line_test
  rw [h1, h2, h3, h4, h5, h6, h7, h8]
  simp only [line_bits, lines, List.any_cons, List.all_cons, List.any_nil, List.all_nil,
    Bool.and_true, Bool.or_false, Bool.or_assoc, Bool.and_assoc]

theorem line_test_iff (x : Nat) : line_test x = true ↔ contains_line x := by
  rw [line_test_eq_line_bits, line_bits_iff]

/-! ## The two loops over the nine squares -/

theorem bitboards_fold (b : Board_t) (n j : Nat) :
    (((List.range n).foldl (bitboards_step b) (0, 0)).1.testBit j
        = decide (j < n ∧ cell b j = naught)) ∧
    (((List.range n).foldl (bitboards_step b) (0, 0)).2.testBit j
        = decide (j < n ∧ cell b j = cross)) := by
  induction n with
  | zero => simp
  | succ n ih =>
    rw [List.range_succ, List.foldl_append]
    simp only [List.foldl_cons, List.foldl_nil]
    generalize (List.range n).foldl (bitboards_step b) (0, 0) = acc at ih
    obtain ⟨ih1, ih2⟩ := ih
    have hnc : naught ≠ cross := by decide
    have hlt : ∀ k : Nat, k ≠ j → ((j < k + 1) ↔ (j < k)) := by intro k hk; omega
    unfold bitboards_step
    by_cases h1 : cell b n = naught
    · rw [if_pos h1]
      simp only [Nat.testBit_or, testBit_one_shl, ih1, ih2]
      by_cases hj : n = j
      · subst hj; simp [h1, hnc]
      · simp [hj, hlt n hj]
    · rw [if_neg h1]
      by_cases h2 : cell b n = cross
      · rw [if_pos h2]
        simp only [Nat.testBit_or, testBit_one_shl, ih1, ih2]
        by_cases hj : n = j
        · subst hj; simp [h2, hnc.symm]
        · simp [hj, hlt n hj]
      · rw [if_neg h2, ih1, ih2]
        by_cases hj : n = j
        · subst hj; simp [h1, h2]
        · simp [hlt n hj]

theorem testBit_naughts (b : Board_t) (j : Nat) :
    (bitboards_of b).1.testBit j = true ↔ j < 9 ∧ cell b j = naught := by
  unfold bitboards_of
  rw [(bitboards_fold b 9 j).1]
  simp

theorem testBit_crosses (b : Board_t) (j : Nat) :
    (bitboards_of b).2.testBit j = true ↔ j < 9 ∧ cell b j = cross := by
  unfold bitboards_of
  rw [(bitboards_fold b 9 j).2]
  simp

theorem moves_fold (a n : Nat) :
    (List.range n).foldl (moves_step a) [] = (List.range n).filter (fun i => a.testBit i) := by
  induction n with
  | zero => simp
  | succ n ih =>
    rw [List.range_succ, List.foldl_append, List.filter_append, ih]
    simp only [List.foldl_cons, List.foldl_nil]
    unfold moves_step
    by_cases h : a.testBit n = true
    · rw [if_pos ((and_one_shl_ne_zero a n).2 h)]
      simp [h]
    · rw [if_neg (fun hh => h ((and_one_shl_ne_zero a n).1 hh))]
      simp [h]

theorem moves_of_mask_eq (a : Nat) :
    moves_of_mask a = (List.range 9).filter (fun i => a.testBit i) :=
  moves_fold a 9

/-! ## Grid reads and writes -/

theorem cell_of_lt (b : Board_t) (i : Nat) (h : i < 9) :
    cell b i = b ⟨i / 3, by omega⟩ ⟨i % 3, by omega⟩ := by
  simp [cell, h]

theorem cell_of_ge (b : Board_t) (i : Nat) (h : 9 ≤ i) : cell b i = 0 := by
  have : ¬ i < 9 := by omega
  simp [cell, this]

theorem cell_board_after (b : Board_t) (m : Nat) (p : Int) (i : Nat) (hm : m < 9)
    (hi : i < 9) : cell (board_after b m p) i = if i = m then p else cell b i := by
  have hm3 : m / 3 < 3 := by omega
  rw [cell_of_lt _ i hi, cell_of_lt _ i hi]
  unfold board_after
  rw [dif_pos hm3]
  unfold set_cell
  by_cases h : i = m
  · subst h; simp
  · have : ¬ ((⟨i / 3, by omega⟩ : Fin 3) = ⟨m / 3, hm3⟩ ∧
        (⟨i % 3, by omega⟩ : Fin 3) = ⟨m % 3, Nat.mod_lt _ (by decide)⟩) := by
      rintro ⟨h1, h2⟩
      rw [Fin.mk.injEq] at h1 h2
      omega
    rw [if_neg this, if_neg h]

theorem cells_ok_cell (b : Board_t) (h : cells_ok b) (i : Nat) :
    cell b i = -1 ∨ cell b i = 0 ∨ cell b i = 1 := by
  by_cases hi : i < 9
  · rw [cell_of_lt b i hi]; exact h _ _
  · right; left; exact cell_of_ge b i (by omega)

theorem cells_ok_board_after (b : Board_t) (m : Nat) (p : Int) (h : cells_ok b)
    (hp : p = -1 ∨ p = 1) : cells_ok (board_after b m p) := by
  intro r c
  unfold board_after
  split
  · unfold set_cell
    split
    · rcases hp with hp | hp
      · left; exact hp
      · right; right; exact hp
    · exact h r c
  · exact h r c

theorem cells_ok_init : cells_ok init_state.m_board := by
  intro r c; right; left; rfl

/-! ## `make_move` and `undo_move` as state transformers -/

theorem make_move_eq (g : NaughtsAndCrosses) (m : Nat) (hm : m < 9) :
    make_move g m = some
      { m_board := board_after g.m_board m g.m_player
        m_history := g.m_history ++ [g.m_board]
        m_naughts := (bitboards_of (board_after g.m_board m g.m_player)).1
        m_crosses := (bitboards_of (board_after g.m_board m g.m_player)).2
        m_candidates := g.m_candidates
        m_player := g.m_player * -1 } := by
  have hm3 : m / 3 < 3 := by omega
  unfold make_move
  rw [dif_pos hm3]
  simp only [update_bitboards, board_after, dif_pos hm3]

theorem make_move_none (g : NaughtsAndCrosses) (m : Nat) (hm : 9 ≤ m) :
    make_move g m = none := by
  have hm3 : ¬ m / 3 < 3 := by omega
  unfold make_move
  rw [dif_neg hm3]

theorem undo_move_concat (g : NaughtsAndCrosses) (h : List Board_t) (top : Board_t)
    (hh : g.m_history = h ++ [top]) :
    undo_move g = some
      { m_board := top
        m_history := h
        m_naughts := (bitboards_of top).1
        m_crosses := (bitboards_of top).2
        m_candidates := g.m_candidates
        m_player := g.m_player * -1 } := by
  unfold undo_move
  rw [hh, List.getLast?_concat]
  simp only [update_bitboards, List.dropLast_concat]

theorem undo_move_nil (g : NaughtsAndCrosses) (hh : g.m_history = []) :
    undo_move g = none := by
  unfold undo_move
  rw [hh]
  rfl

theorem undo_move_some (g g1 : NaughtsAndCrosses) (h : undo_move g = some g1) :
    ∃ hs top, g.m_history = hs ++ [top] ∧ g1 =
      { m_board := top
        m_history := hs
        m_naughts := (bitboards_of top).1
        m_crosses := (bitboards_of top).2
        m_candidates := g.m_candidates
        m_player := g.m_player * -1 } := by
  rcases List.eq_nil_or_concat g.m_history with hn | ⟨hs, top, hc⟩
  · rw [undo_move_nil g hn] at h; cases h
  · rw [List.concat_eq_append] at hc
    refine ⟨hs, top, hc, ?_⟩
    rw [undo_move_concat g hs top hc] at h
    exact (Option.some.inj h).symm

/-! ## The invariant of the reachable states -/

theorem well_formed_init : well_formed init_state := by
  refine ⟨⟨by decide, by decide⟩, cells_ok_init, ?_, Or.inl rfl⟩
  intro h hh
  cases hh

theorem neg_player (p : Int) (hp : p = -1 ∨ p = 1) : p * -1 = -1 ∨ p * -1 = 1 := by
  rcases hp with hp | hp <;> subst hp
  · right; rfl
  · left; rfl

theorem well_formed_make_move (g g1 : NaughtsAndCrosses) (m : Nat) (hm : m < 9)
    (hg : well_formed g) (h : make_move g m = some g1) : well_formed g1 := by
  rw [make_move_eq g m hm] at h
  obtain ⟨_, hc, hh, hp⟩ := hg
  cases h
  refine ⟨⟨rfl, rfl⟩, cells_ok_board_after _ _ _ hc hp, ?_, neg_player _ hp⟩
  intro b hb
  rcases List.mem_append.1 hb with hb | hb
  · exact hh b hb
  · rw [List.mem_singleton] at hb
    rw [hb]; exact hc

theorem well_formed_undo_move (g g1 : NaughtsAndCrosses)
    (hg : well_formed g) (h : undo_move g = some g1) : well_formed g1 := by
  obtain ⟨hs, top, hc, rfl⟩ := undo_move_some g g1 h
  obtain ⟨_, _, hh, hp⟩ := hg
  rw [hc] at hh
  refine ⟨⟨rfl, rfl⟩, hh top (by simp), ?_, neg_player _ hp⟩
  intro b hb
  exact hh b (List.mem_append_left _ hb)

theorem well_formed_of_reachable (g : NaughtsAndCrosses) (hg : Reachable g) :
    well_formed g := by
  induction hg with
  | init => exact well_formed_init
  | make g g1 p _ hp hm ih => exact well_formed_make_move g g1 p hp ih hm
  | undo g g1 _ hu ih => exact well_formed_undo_move g g1 ih hu
  | update g _ ih =>
    obtain ⟨_, hc, hh, hp⟩ := ih
    exact ⟨⟨rfl, rfl⟩, hc, hh, hp⟩
  | generate g _ ih => exact ih

theorem reachable_play_moves (ms : List Nat) (hms : ∀ m ∈ ms, m < 9) :
    ∀ g g1 : NaughtsAndCrosses, Reachable g → play_moves ms g = some g1 → Reachable g1 := by
  induction ms with
  | nil =>
    intro g g1 hg h
    cases h
    exact hg
  | cons m rest ih =>
    intro g g1 hg h
    unfold play_moves at h
    cases hmk : make_move g m with
    | none => rw [hmk] at h; cases h
    | some g2 =>
      rw [hmk] at h
      exact ih (fun x hx => hms x (List.mem_cons_of_mem _ hx)) g2 g1
        (Reachable.make g g2 m hg (hms m (List.mem_cons_self _ _)) hmk) h

/-! ## Bitboards against the grid -/

theorem testBit_naughts_bool (b : Board_t) (j : Nat) :
    (bitboards_of b).1.testBit j = decide (j < 9 ∧ cell b j = naught) := by
  unfold bitboards_of
  exact (bitboards_fold b 9 j).1

theorem testBit_crosses_bool (b : Board_t) (j : Nat) :
    (bitboards_of b).2.testBit j = decide (j < 9 ∧ cell b j = cross) := by
  unfold bitboards_of
  exact (bitboards_fold b 9 j).2

theorem bitboards_disjoint (b : Board_t) : (bitboards_of b).1 &&& (bitboards_of b).2 = 0 := by
  apply Nat.eq_of_testBit_eq
  intro i
  rw [Nat.testBit_and, testBit_naughts_bool, testBit_crosses_bool, Nat.zero_testBit]
  have hnc : naught ≠ cross := by decide
  by_cases h : cell b i = naught
  · have : cell b i ≠ cross := by rw [h]; exact hnc
    simp [this]
  · simp [h]

theorem bitboards_lt (b : Board_t) : (bitboards_of b).1 < 512 ∧ (bitboards_of b).2 < 512 := by
  constructor
  · apply @Nat.lt_pow_two_of_testBit 9
    intro i hi
    rw [testBit_naughts_bool]
    have : ¬ i < 9 := by omega
    simp [this]
  · apply @Nat.lt_pow_two_of_testBit 9
    intro i hi
    rw [testBit_crosses_bool]
    have : ¬ i < 9 := by omega
    simp [this]

theorem testBit_available (b : Board_t) (i : Nat) (hi : i < 9) :
    (0x1ff ^^^ ((bitboards_of b).1 ||| (bitboards_of b).2)).testBit i
      = decide (cell b i ≠ naught ∧ cell b i ≠ cross) := by
  have h511 : (0x1ff : Nat).testBit i = decide (i < 9) := Nat.testBit_two_pow_sub_one 9 i
  rw [Nat.testBit_xor, Nat.testBit_or, h511, testBit_naughts_bool, testBit_crosses_bool]
  by_cases h1 : cell b i = naught <;> by_cases h2 : cell b i = cross <;> simp [hi, h1, h2]

/-- The list `generate_moves` stores, for bitboards derived from the grid: the
squares holding neither marker, ascending. -/
theorem candidates_generate (g : NaughtsAndCrosses) (hc : consistent g) :
    (generate_moves g).m_candidates
      = (List.range 9).filter
          (fun i => decide (cell g.m_board i ≠ naught ∧ cell g.m_board i ≠ cross)) := by
  unfold generate_moves
  simp only
  rw [hc.1, hc.2, moves_of_mask_eq]
  apply List.filter_congr
  intro i hi
  exact testBit_available g.m_board i (List.mem_range.1 hi)

theorem empty_iff_no_marker (b : Board_t) (h : cells_ok b) (i : Nat) :
    (cell b i ≠ naught ∧ cell b i ≠ cross) ↔ cell b i = 0 := by
  unfold naught cross
  rcases cells_ok_cell b h i with h1 | h1 | h1 <;> rw [h1] <;> decide

theorem candidates_generate_empty (g : NaughtsAndCrosses) (hc : consistent g)
    (hk : cells_ok g.m_board) : (generate_moves g).m_candidates = empty_squares g.m_board := by
  rw [candidates_generate g hc]
  unfold empty_squares
  apply List.filter_congr
  intro i _
  exact decide_eq_decide.2 (empty_iff_no_marker g.m_board hk i)

/-! ## Claims on moves, bitboards, candidates and evaluation -/

/-- C1: in every reachable state, for every empty square `p` in `0..8`,
`make_move(p)` succeeds and the `undo_move()` that follows gives back exactly
the state before the move: grid, both bitboards, player to move, history (and
the untouched candidate list). -/
theorem make_move_then_undo_move (g : NaughtsAndCrosses) (hg : Reachable g) (p : Nat)
    (hp : p < 9) (_hempty : cell g.m_board p = 0) :
    ∃ g1, make_move g p = some g1 ∧ undo_move g1 = some g ∧
      g1.m_history.length = g.m_history.length + 1 := by
  obtain ⟨⟨hn, hc⟩, _, _, hpl⟩ := well_formed_of_reachable g hg
  refine ⟨_, make_move_eq g p hp, ?_, by simp⟩
  rw [undo_move_concat _ g.m_history g.m_board rfl]
  have hpp : g.m_player * -1 * -1 = g.m_player := by ring
  simp only [hpp, ← hn, ← hc]

/-- Witness of C1: the centre square of the initial state. -/
theorem make_move_then_undo_move_witness :
    Reachable init_state ∧ 4 < 9 ∧ cell init_state.m_board 4 = 0 ∧
      ∃ g1, make_move init_state 4 = some g1 ∧ undo_move g1 = some init_state ∧
        g1.m_history.length = init_state.m_history.length + 1 :=
  ⟨Reachable.init, by decide, by decide,
    make_move_then_undo_move init_state Reachable.init 4 (by decide) (by decide)⟩

/-- C2: in every reachable state and for every square `i` in `0..8`, bit `i` of
`m_naughts` is set iff the cell holds naught, bit `i` of `m_crosses` is set iff
the cell holds cross, neither is set iff the cell is `0`; the bitboards are
disjoint and have no bit above bit 8.  The three boards of the header are
reached by play and have the documented bitboards. -/
theorem bitboards_match_grid (g : NaughtsAndCrosses) (hg : Reachable g) :
    (∀ i, i < 9 →
      (g.m_naughts.testBit i = true ↔ cell g.m_board i = naught) ∧
      (g.m_crosses.testBit i = true ↔ cell g.m_board i = cross) ∧
      ((g.m_naughts.testBit i = false ∧ g.m_crosses.testBit i = false)
        ↔ cell g.m_board i = 0)) ∧
    g.m_naughts &&& g.m_crosses = 0 ∧
    (∀ i, 9 ≤ i → g.m_naughts.testBit i = false ∧ g.m_crosses.testBit i = false) ∧
    g.m_naughts < 2 ^ 9 ∧ g.m_crosses < 2 ^ 9 ∧
    (play_moves [2] init_state).map (fun s => (cells s.m_board, s.m_naughts, s.m_crosses))
      = some ([0, 0, -1, 0, 0, 0, 0, 0, 0], 0x4, 0x0) ∧
    (play_moves [5, 4, 8] init_state).map
        (fun s => (cells s.m_board, s.m_naughts, s.m_crosses))
      = some ([0, 0, 0, 0, 1, -1, 0, 0, -1], 0x120, 0x10) ∧
    (play_moves [1, 0, 5, 2, 6, 4, 7] init_state).map
        (fun s => (cells s.m_board, s.m_naughts, s.m_crosses))
      = some ([1, -1, 1, 0, 1, -1, -1, -1, 0], 0xe2, 0x15) := by
  obtain ⟨⟨hn, hc⟩, hk, _, _⟩ := well_formed_of_reachable g hg
  rw [hn, hc]
  refine ⟨?_, bitboards_disjoint _, ?_, (bitboards_lt _).1, (bitboards_lt _).2,
    by decide, by decide, by decide⟩
  · intro i hi
    have e := empty_iff_no_marker g.m_board hk i
    refine ⟨?_, ?_, ?_⟩
    · rw [testBit_naughts]; simp [hi]
    · rw [testBit_crosses]; simp [hi]
    · rw [← e, testBit_naughts_bool, testBit_crosses_bool]; simp [hi]
  · intro i hi
    have : ¬ i < 9 := by omega
    rw [testBit_naughts_bool, testBit_crosses_bool]
    simp [this]

/-- Witness of C2: the initial state. -/
theorem bitboards_match_grid_witness :
    Reachable init_state ∧ init_state.m_naughts &&& init_state.m_crosses = 0 :=
  ⟨Reachable.init, (bitboards_match_grid init_state Reachable.init).2.1⟩

/-- C3: in every reachable state, whatever the candidate list held, after
`generate_moves()` the list `candidates()` is the list of the squares `0..8`
whose cell is `0`, strictly ascending, containing exactly the empty squares. -/
theorem generate_moves_lists_empty_squares (g : NaughtsAndCrosses) (hg : Reachable g)
    (previous : List Nat) :
    candidates (generate_moves { g with m_candidates := previous })
      = (List.range 9).filter (fun i => decide (cell g.m_board i = 0)) ∧
    List.Pairwise (fun a b => a < b)
      (candidates (generate_moves { g with m_candidates := previous })) ∧
    ∀ i, i ∈ candidates (generate_moves { g with m_candidates := previous })
      ↔ i < 9 ∧ cell g.m_board i = 0 := by
  obtain ⟨hc, hk, _, _⟩ := well_formed_of_reachable g hg
  have e : candidates (generate_moves { g with m_candidates := previous })
      = empty_squares g.m_board :=
    candidates_generate_empty { g with m_candidates := previous } hc hk
  rw [e]
  refine ⟨rfl, List.Pairwise.filter _ (List.pairwise_lt_range 9), ?_⟩
  intro i
  simp [empty_squares]

/-- Witness of C3: the initial state with a stale candidate list. -/
theorem generate_moves_lists_empty_squares_witness :
    Reachable init_state ∧
      candidates (generate_moves { init_state with m_candidates := [7, 7, 42] })
        = (List.range 9).filter (fun i => decide (cell init_state.m_board i = 0)) :=
  ⟨Reachable.init,
    (generate_moves_lists_empty_squares init_state Reachable.init [7, 7, 42]).1⟩

/-- C4: `evaluate()` is `-1` iff the naughts occupancy set contains a whole
geometric line, `+1` iff it contains none and the crosses set contains one, and
`0` iff neither set contains one; when both sets contain a line the result is
`-1`.  The statement holds for all bitboard values, 9-bit ones in particular. -/
theorem evaluate_detects_lines (g : NaughtsAndCrosses) :
    (evaluate g = -1 ↔ contains_line g.m_naughts) ∧
    (evaluate g = 1 ↔ ¬ contains_line g.m_naughts ∧ contains_line g.m_crosses) ∧
    (evaluate g = 0 ↔ ¬ contains_line g.m_naughts ∧ ¬ contains_line g.m_crosses) ∧
    (contains_line g.m_naughts → contains_line g.m_crosses → evaluate g = -1) := by
  rw [← line_test_iff, ← line_test_iff]
  unfold evaluate naught cross
  cases line_test g.m_naughts <;> cases line_test g.m_crosses <;> simp

/-- C9: on the fixture position `[A,B,A],[_,A,B],[B,B,_]` with `A` to move,
`evaluate()` is `0` and `generate_moves()` leaves `candidates() = [3, 8]`. -/
theorem fixture_evaluate_and_candidates :
    cells fixture.m_board = [-1, 1, -1, 0, -1, 1, 1, 1, 0] ∧
    current_player fixture = -1 ∧
    evaluate fixture = 0 ∧
    candidates (generate_moves fixture) = [3, 8] := by
  refine ⟨by decide, by decide, by decide, by decide⟩

/-- Counterexample to C10: on the fixture position `select_move()` does not
return square 3. -/
theorem fixture_select_move_not_3 :
    ¬ ((select_move (generate_moves fixture)).map Prod.fst = some 3) := by
  decide

/-- C10 (amended): on the fixture position with candidates `[3, 8]`,
`select_move()` returns square 8, the square that completes the diagonal
`0, 4, 8` for player `A`. -/
theorem fixture_select_move_8 :
    candidates (generate_moves fixture) = [3, 8] ∧
    (select_move (generate_moves fixture)).map Prod.fst = some 8 := by
  refine ⟨by decide, by decide⟩

/-! ## The search restores the state and computes `negamax_value` -/

theorem evaluate_eq_board_score (g : NaughtsAndCrosses) (hc : consistent g) :
    evaluate g = board_score g.m_board := by
  unfold evaluate board_score
  rw [hc.1, hc.2]

theorem generate_moves_eq (g : NaughtsAndCrosses) (hc : consistent g) :
    generate_moves g = { g with m_candidates := board_moves g.m_board } := by
  unfold generate_moves board_moves
  rw [hc.1, hc.2]

theorem board_moves_lt (b : Board_t) (m : Nat) (h : m ∈ board_moves b) : m < 9 := by
  unfold board_moves at h
  rw [moves_of_mask_eq] at h
  exact List.mem_range.1 (List.mem_filter.1 h).1

theorem with_candidates_self (g : NaughtsAndCrosses) :
    { g with m_candidates := g.m_candidates } = g := rfl

theorem make_then_undo (g : NaughtsAndCrosses) (hc : consistent g) (m : Nat) (hm : m < 9)
    (cs : List Nat) :
    ∃ g1, make_move g m = some g1 ∧ consistent g1 ∧
      g1.m_board = board_after g.m_board m g.m_player ∧
      g1.m_player = g.m_player * -1 ∧
      undo_move { g1 with m_candidates := cs } = some { g with m_candidates := cs } := by
  refine ⟨_, make_move_eq g m hm, ⟨rfl, rfl⟩, rfl, rfl, ?_⟩
  rw [undo_move_concat _ g.m_history g.m_board rfl]
  have hpp : g.m_player * -1 * -1 = g.m_player := by ring
  simp only [hpp, ← hc.1, ← hc.2]

theorem negamax_loop_run (recurse : NaughtsAndCrosses → Option (Int × NaughtsAndCrosses))
    (f : Board_t → Int → Int)
    (hrec : ∀ g, consistent g →
      ∃ cs, recurse g = some (f g.m_board g.m_player, { g with m_candidates := cs })) :
    ∀ (ms : List Nat), (∀ m ∈ ms, m < 9) → ∀ (max : Int) (g : NaughtsAndCrosses),
      consistent g →
      ∃ cs, negamax_loop recurse ms max g
        = some (ms.foldl
            (fun mx m => max_step mx (- f (board_after g.m_board m g.m_player) (g.m_player * -1)))
            max, { g with m_candidates := cs }) := by
  intro ms
  induction ms with
  | nil =>
    intro _ max g _
    exact ⟨g.m_candidates, rfl⟩
  | cons m rest ih =>
    intro hms max g hc
    obtain ⟨g1, hmk, hc1, hb1, hp1, _⟩ :=
      make_then_undo g hc m (hms m (List.mem_cons_self _ _)) []
    obtain ⟨cs1, hr⟩ := hrec g1 hc1
    obtain ⟨g1b, hmk2, _, _, _, hun⟩ :=
      make_then_undo g hc m (hms m (List.mem_cons_self _ _)) cs1
    rw [hmk] at hmk2
    cases hmk2
    obtain ⟨cs, hrest⟩ := ih (fun x hx => hms x (List.mem_cons_of_mem _ hx))
      (max_step max (- f g1.m_board g1.m_player)) { g with m_candidates := cs1 } hc
    refine ⟨cs, ?_⟩
    simp only [negamax_loop, hmk, hr, hun, List.foldl_cons]
    rw [hb1, hp1]
    rw [hb1, hp1] at hrest
    exact hrest

theorem negamax_run (d : Nat) : ∀ g : NaughtsAndCrosses, consistent g →
    ∃ cs, negamax d g
      = some (negamax_value d g.m_board g.m_player, { g with m_candidates := cs }) := by
  induction d with
  | zero =>
    intro g hc
    refine ⟨g.m_candidates, ?_⟩
    simp only [negamax, negamax_value, current_player, evaluate_eq_board_score g hc]
  | succ d ih =>
    intro g hc
    simp only [negamax, negamax_value, current_player, evaluate_eq_board_score g hc]
    by_cases hs : g.m_player * board_score g.m_board ≠ 0
    · rw [if_pos hs, if_pos hs]
      exact ⟨g.m_candidates, rfl⟩
    · rw [if_neg hs, if_neg hs, generate_moves_eq g hc]
      obtain ⟨cs, h⟩ := negamax_loop_run (negamax d) (negamax_value d) ih
        (board_moves g.m_board) (board_moves_lt g.m_board) (-1)
        { g with m_candidates := board_moves g.m_board } hc
      exact ⟨cs, h⟩

theorem select_loop_run (depth : Nat) :
    ∀ (ms : List Nat), (∀ m ∈ ms, m < 9) →
      ∀ (i : Nat) (max : Int) (max_index : Nat) (g : NaughtsAndCrosses), consistent g →
      ∃ cs, select_loop depth ms i max max_index g
        = some (select_index
            (ms.map (fun m =>
              - negamax_value (depth - 1) (board_after g.m_board m g.m_player) (g.m_player * -1)))
            i max max_index, { g with m_candidates := cs }) := by
  intro ms
  induction ms with
  | nil =>
    intro _ i max max_index g _
    exact ⟨g.m_candidates, rfl⟩
  | cons m rest ih =>
    intro hms i max max_index g hc
    obtain ⟨g1, hmk, hc1, hb1, hp1, _⟩ :=
      make_then_undo g hc m (hms m (List.mem_cons_self _ _)) []
    obtain ⟨cs1, hr⟩ := negamax_run (depth - 1) g1 hc1
    obtain ⟨g1b, hmk2, _, _, _, hun⟩ :=
      make_then_undo g hc m (hms m (List.mem_cons_self _ _)) cs1
    rw [hmk] at hmk2
    cases hmk2
    have hrest := fun mx mi => ih (fun x hx => hms x (List.mem_cons_of_mem _ hx))
      (i + 1) mx mi { g with m_candidates := cs1 } hc
    simp only [select_loop, hmk, hr, hun, List.map_cons, select_index]
    rw [hb1, hp1]
    by_cases hlt : max < - negamax_value (depth - 1) (board_after g.m_board m g.m_player)
        (g.m_player * -1)
    · simp only [if_pos hlt]
      exact hrest _ _
    · simp only [if_neg hlt]
      exact hrest _ _

theorem select_index_spec (l : List Int) :
    ∀ (i : Nat) (max : Int) (max_index : Nat),
      (select_index l i max max_index = max_index ∧ ∀ s ∈ l, s ≤ max) ∨
      (∃ k v, l[k]? = some v ∧ select_index l i max max_index = i + k ∧ max < v ∧
        (∀ j w, j < k → l[j]? = some w → w < v) ∧ ∀ s ∈ l, s ≤ v) := by
  induction l with
  | nil =>
    intro i max max_index
    left
    exact ⟨rfl, by simp⟩
  | cons s rest ih =>
    intro i max max_index
    by_cases hlt : max < s
    · simp only [select_index, if_pos hlt]
      right
      rcases ih (i + 1) s i with ⟨hr, hall⟩ | ⟨k, v, hk, hr, hv, hbefore, hall⟩
      · refine ⟨0, s, by simp, by rw [hr]; rfl, hlt, ?_, ?_⟩
        · intro j w hj; omega
        · intro t ht
          rcases List.mem_cons.1 ht with rfl | ht
          · exact le_refl _
          · exact hall t ht
      · refine ⟨k + 1, v, by simpa using hk, by rw [hr]; omega, by omega, ?_, ?_⟩
        · intro j w hj hw
          cases j with
          | zero =>
            simp only [List.getElem?_cons_zero, Option.some.injEq] at hw
            omega
          | succ j =>
            simp only [List.getElem?_cons_succ] at hw
            exact hbefore j w (by omega) hw
        · intro t ht
          rcases List.mem_cons.1 ht with rfl | ht
          · omega
          · exact hall t ht
    · simp only [select_index, if_neg hlt]
      rcases ih (i + 1) max max_index with ⟨hr, hall⟩ | ⟨k, v, hk, hr, hv, hbefore, hall⟩
      · left
        refine ⟨hr, ?_⟩
        intro t ht
        rcases List.mem_cons.1 ht with rfl | ht
        · omega
        · exact hall t ht
      · right
        refine ⟨k + 1, v, by simpa using hk, by rw [hr]; omega, hv, ?_, ?_⟩
        · intro j w hj hw
          cases j with
          | zero =>
            simp only [List.getElem?_cons_zero, Option.some.injEq] at hw
            omega
          | succ j =>
            simp only [List.getElem?_cons_succ] at hw
            exact hbefore j w (by omega) hw
        · intro t ht
          rcases List.mem_cons.1 ht with rfl | ht
          · omega
          · exact hall t ht

/-- From the start values of `select_move` and scores not below `-1`, the final
`max_index` is the first index holding the greatest score. -/
theorem select_index_first_max (l : List Int) (hne : l ≠ []) (hlow : ∀ s ∈ l, -1 ≤ s) :
    ∃ v, l[select_index l 0 (-1) 0]? = some v ∧
      (∀ j w, j < select_index l 0 (-1) 0 → l[j]? = some w → w < v) ∧
      ∀ s ∈ l, s ≤ v := by
  rcases select_index_spec l 0 (-1) 0 with ⟨hr, hall⟩ | ⟨k, v, hk, hr, _, hbefore, hall⟩
  · cases l with
    | nil => exact absurd rfl hne
    | cons x rest =>
      refine ⟨x, by rw [hr]; simp, ?_, ?_⟩
      · intro j w hj; rw [hr] at hj; omega
      · intro s hs
        have h1 := hall s hs
        have h2 := hlow x (List.mem_cons_self _ _)
        omega
  · refine ⟨v, by rw [hr]; simpa using hk, ?_, hall⟩
    intro j w hj hw
    exact hbefore j w (by rw [hr] at hj; omega) hw

theorem pairwise_getElem? {α : Type} (R : α → α → Prop) (l : List α)
    (h : List.Pairwise R l) :
    ∀ (i j : Nat) (a b : α), i < j → l[i]? = some a → l[j]? = some b → R a b := by
  induction l with
  | nil => intro i j a b _ ha; simp at ha
  | cons x rest ih =>
    intro i j a b hij ha hb
    rw [List.pairwise_cons] at h
    cases j with
    | zero => omega
    | succ j =>
      simp only [List.getElem?_cons_succ] at hb
      cases i with
      | zero =>
        simp only [List.getElem?_cons_zero, Option.some.injEq] at ha
        subst ha
        exact h.1 b (List.getElem?_mem hb)
      | succ i =>
        simp only [List.getElem?_cons_succ] at ha
        exact ih h.2 i j a b (by omega) ha hb

/-! ## The running maximum -/

theorem max_step_eq_max (a b : Int) : max_step a b = max a b := by
  unfold max_step
  split
  · rw [max_eq_right]; omega
  · rw [max_eq_left]; omega

theorem foldl_max_step_ge_init {α : Type} (f : α → Int) (l : List α) :
    ∀ init : Int, init ≤ l.foldl (fun mx m => max_step mx (f m)) init := by
  induction l with
  | nil => intro init; exact le_refl _
  | cons x rest ih =>
    intro init
    simp only [List.foldl_cons]
    have h1 := ih (max_step init (f x))
    have h2 : init ≤ max_step init (f x) := by rw [max_step_eq_max]; exact le_max_left _ _
    omega

theorem foldl_max_step_ge_mem {α : Type} (f : α → Int) (l : List α) :
    ∀ (init : Int) (m : α), m ∈ l → f m ≤ l.foldl (fun mx m => max_step mx (f m)) init := by
  induction l with
  | nil => intro init m hm; cases hm
  | cons x rest ih =>
    intro init m hm
    simp only [List.foldl_cons]
    rcases List.mem_cons.1 hm with rfl | hm
    · have h1 := foldl_max_step_ge_init f rest (max_step init (f m))
      have h2 : f m ≤ max_step init (f m) := by rw [max_step_eq_max]; exact le_max_right _ _
      omega
    · exact ih _ m hm

theorem foldl_max_step_le {α : Type} (f : α → Int) (top : Int) (l : List α) :
    ∀ init : Int, init ≤ top → (∀ m ∈ l, f m ≤ top) →
      l.foldl (fun mx m => max_step mx (f m)) init ≤ top := by
  induction l with
  | nil => intro init hi _; exact hi
  | cons x rest ih =>
    intro init hi hall
    simp only [List.foldl_cons]
    apply ih
    · rw [max_step_eq_max]
      exact max_le hi (hall x (List.mem_cons_self _ _))
    · intro m hm
      exact hall m (List.mem_cons_of_mem _ hm)

theorem foldl_max_step_attained {α : Type} (f : α → Int) (l : List α) :
    ∀ init : Int, l.foldl (fun mx m => max_step mx (f m)) init = init ∨
      ∃ m ∈ l, l.foldl (fun mx m => max_step mx (f m)) init = f m := by
  induction l with
  | nil => intro init; left; rfl
  | cons x rest ih =>
    intro init
    simp only [List.foldl_cons]
    rcases ih (max_step init (f x)) with h | ⟨m, hm, h⟩
    · rw [h]
      unfold max_step
      split
      · right; exact ⟨x, List.mem_cons_self _ _, rfl⟩
      · left; rfl
    · right
      exact ⟨m, List.mem_cons_of_mem _ hm, h⟩

/-! ## Range of the scores -/

theorem board_score_cases (b : Board_t) :
    board_score b = -1 ∨ board_score b = 0 ∨ board_score b = 1 := by
  unfold board_score naught cross
  split
  · left; rfl
  · split
    · right; right; rfl
    · right; left; rfl

theorem player_mul_score_range (p s : Int) (hp : p = -1 ∨ p = 1)
    (hs : s = -1 ∨ s = 0 ∨ s = 1) : -1 ≤ p * s ∧ p * s ≤ 1 := by
  rcases hp with rfl | rfl <;> rcases hs with rfl | rfl | rfl <;> decide

theorem negamax_value_range (d : Nat) : ∀ (b : Board_t) (p : Int), (p = -1 ∨ p = 1) →
    -1 ≤ negamax_value d b p ∧ negamax_value d b p ≤ 1 := by
  induction d with
  | zero =>
    intro b p hp
    simp only [negamax_value]
    exact player_mul_score_range p _ hp (board_score_cases b)
  | succ d ih =>
    intro b p hp
    simp only [negamax_value]
    split
    · exact player_mul_score_range p _ hp (board_score_cases b)
    · constructor
      · exact foldl_max_step_ge_init _ _ _
      · apply foldl_max_step_le _ 1 _ _ (by decide)
        intro m _
        have := (ih (board_after b m p) (p * -1) (neg_player p hp)).1
        omega

/-! ## `select_move` as a function of the state -/

theorem move_score_eq (n : Nat) (g : NaughtsAndCrosses) (hc : consistent g) (c : Nat)
    (hlt : c < 9) :
    move_score n g c
      = some (- negamax_value (n - 1) (board_after g.m_board c g.m_player) (g.m_player * -1)) := by
  obtain ⟨g1, hmk, hc1, hb1, hp1, _⟩ := make_then_undo g hc c hlt []
  obtain ⟨cs1, hr⟩ := negamax_run (n - 1) g1 hc1
  simp only [move_score, hmk, hr]
  rw [hb1, hp1]

theorem select_move_run (g : NaughtsAndCrosses) (hc : consistent g)
    (hlt : ∀ m ∈ g.m_candidates, m < 9) :
    select_move g
      = (g.m_candidates[select_index
            (g.m_candidates.map (fun m =>
              - negamax_value (g.m_candidates.length - 1)
                  (board_after g.m_board m g.m_player) (g.m_player * -1)))
            0 (-1) 0]?).map
          (fun m => (m, { g with m_candidates := board_moves g.m_board })) := by
  obtain ⟨cs, h⟩ := select_loop_run g.m_candidates.length g.m_candidates hlt 0 (-1) 0 g hc
  have hgen := generate_moves_eq { g with m_candidates := cs } hc
  unfold select_move
  simp only [h, hgen]
  cases g.m_candidates[select_index
            (g.m_candidates.map (fun m =>
              - negamax_value (g.m_candidates.length - 1)
                  (board_after g.m_board m g.m_player) (g.m_player * -1)))
            0 (-1) 0]? with
  | none => rfl
  | some m => rfl

theorem board_moves_eq_empty (b : Board_t) (hk : cells_ok b) :
    board_moves b = empty_squares b := by
  unfold board_moves empty_squares
  rw [moves_of_mask_eq]
  apply List.filter_congr
  intro i hi
  rw [testBit_available b i (List.mem_range.1 hi)]
  exact decide_eq_decide.2 (empty_iff_no_marker b hk i)

theorem empty_squares_lt (b : Board_t) (m : Nat) (h : m ∈ empty_squares b) : m < 9 :=
  List.mem_range.1 (List.mem_filter.1 h).1

theorem empty_squares_sorted (b : Board_t) :
    List.Pairwise (fun x y => x < y) (empty_squares b) :=
  List.Pairwise.filter _ (List.pairwise_lt_range 9)

/-- What `select_move` does on a well-formed state with a current, non-empty
candidate list: it returns the candidate at the first index of greatest score
and leaves the state as it was. -/
theorem select_move_result (g : NaughtsAndCrosses) (hw : well_formed g)
    (hcur : g.m_candidates = empty_squares g.m_board) (hne : g.m_candidates ≠ []) :
    ∃ (k c : Nat), select_move g = some (c, g) ∧ g.m_candidates[k]? = some c ∧
      (∀ j c1, g.m_candidates[j]? = some c1 →
        - negamax_value (g.m_candidates.length - 1)
            (board_after g.m_board c1 g.m_player) (g.m_player * -1)
          ≤ - negamax_value (g.m_candidates.length - 1)
            (board_after g.m_board c g.m_player) (g.m_player * -1) ∧
        (j < k →
          - negamax_value (g.m_candidates.length - 1)
              (board_after g.m_board c1 g.m_player) (g.m_player * -1)
            < - negamax_value (g.m_candidates.length - 1)
              (board_after g.m_board c g.m_player) (g.m_player * -1))) := by
  obtain ⟨hc, hk, _, hp⟩ := hw
  have hlt : ∀ m ∈ g.m_candidates, m < 9 := by
    intro m hm
    rw [hcur] at hm
    exact empty_squares_lt _ m hm
  have hrun := select_move_run g hc hlt
  have hsame : ({ g with m_candidates := board_moves g.m_board } : NaughtsAndCrosses) = g := by
    rw [board_moves_eq_empty _ hk, ← hcur]
  rw [hsame] at hrun
  generalize hf : (fun m => - negamax_value (g.m_candidates.length - 1)
      (board_after g.m_board m g.m_player) (g.m_player * -1)) = f at hrun
  have hfa : ∀ m, - negamax_value (g.m_candidates.length - 1)
      (board_after g.m_board m g.m_player) (g.m_player * -1) = f m := by
    intro m; rw [← hf]
  have hlow : ∀ s ∈ g.m_candidates.map f, -1 ≤ s := by
    intro s hs
    obtain ⟨m, _, rfl⟩ := List.mem_map.1 hs
    rw [← hfa]
    have := (negamax_value_range (g.m_candidates.length - 1)
      (board_after g.m_board m g.m_player) (g.m_player * -1) (neg_player _ hp)).2
    omega
  obtain ⟨v, hv, hbefore, hall⟩ :=
    select_index_first_max (g.m_candidates.map f) (by simpa using hne) hlow
  rw [List.getElem?_map] at hv
  cases hget : g.m_candidates[select_index (g.m_candidates.map f) 0 (-1) 0]? with
  | none => rw [hget] at hv; cases hv
  | some c =>
    rw [hget] at hv hrun
    simp only [Option.map_some', Option.some.injEq] at hv hrun
    refine ⟨_, c, hrun, hget, ?_⟩
    intro j c1 hj
    rw [hfa, hfa, hv]
    have hj2 : (g.m_candidates.map f)[j]? = some (f c1) := by
      rw [List.getElem?_map, hj]; rfl
    exact ⟨hall _ (List.getElem?_mem hj2), fun hjk => hbefore j _ hjk hj2⟩

/-! ## Claims on `select_move` -/

/-- C8: for a reachable state whose candidate list is the ascending list of
the empty squares, a call of `select_move()` that returns leaves the complete
state (grid, bitboards, player, history, candidate list) as it was, and it does
return whenever the candidate list is non-empty. -/
theorem select_move_restores_state (g : NaughtsAndCrosses) (hg : Reachable g)
    (hcur : candidates g = (List.range 9).filter (fun i => decide (cell g.m_board i = 0))) :
    (candidates g ≠ [] → ∃ c, select_move g = some (c, g)) ∧
    (∀ c g1, select_move g = some (c, g1) →
      g1 = g ∧
      candidates g1 = (List.range 9).filter (fun i => decide (cell g1.m_board i = 0))) := by
  have hw := well_formed_of_reachable g hg
  constructor
  · intro hne
    obtain ⟨_, c, h, _⟩ := select_move_result g hw hcur hne
    exact ⟨c, h⟩
  · intro c g1 h
    by_cases hne : g.m_candidates = []
    · have hrun := select_move_run g hw.1 (by rw [hne]; intro m hm; cases hm)
      rw [hne] at hrun
      rw [hrun] at h
      simp at h
    · obtain ⟨_, c2, h2, _⟩ := select_move_result g hw hcur hne
      rw [h2] at h
      cases h
      exact ⟨rfl, hcur⟩

theorem reachable_state_after (ms : List Nat) (hms : ∀ m ∈ ms, m < 9) :
    Reachable (state_after ms) := by
  unfold state_after
  cases h : play_moves ms init_state with
  | none => exact Reachable.init
  | some g =>
    exact Reachable.generate g (reachable_play_moves ms hms init_state g Reachable.init h)

/-- Witness of C8: the position after naught 4, cross 0, naught 8. -/
theorem select_move_restores_state_witness :
    Reachable (state_after [4, 0, 8]) ∧
    candidates (state_after [4, 0, 8]) = [1, 2, 3, 5, 6, 7] ∧
    ∃ c, select_move (state_after [4, 0, 8]) = some (c, state_after [4, 0, 8]) :=
  ⟨reachable_state_after [4, 0, 8] (by decide), by decide,
    (select_move_restores_state (state_after [4, 0, 8])
      (reachable_state_after [4, 0, 8] (by decide)) (by decide)).1 (by decide)⟩

/-- C7: for a reachable position without a complete line whose candidate list
is the ascending list of the empty squares and has `n > 0` entries,
`select_move()` returns a candidate `c` whose score `-negamax(n - 1)` after
`make_move(c)` is the greatest of all candidates, and `c` is the smallest
square index with that score; if every candidate scores `-1`, `c` is the first
candidate. -/
theorem select_move_first_best (g : NaughtsAndCrosses) (hg : Reachable g)
    (_hline : evaluate g = 0)
    (hcur : candidates g = (List.range 9).filter (fun i => decide (cell g.m_board i = 0)))
    (hne : candidates g ≠ []) :
    ∃ c sc, select_move g = some (c, g) ∧ c ∈ candidates g ∧
      move_score (candidates g).length g c = some sc ∧
      (∀ c1 ∈ candidates g, ∃ sc1, move_score (candidates g).length g c1 = some sc1 ∧
        sc1 ≤ sc ∧ (sc1 = sc → c ≤ c1)) ∧
      ((∀ c1 ∈ candidates g, move_score (candidates g).length g c1 = some (-1)) →
        (candidates g).head? = some c) := by
  have hw := well_formed_of_reachable g hg
  obtain ⟨k, c, hsel, hget, hbest⟩ := select_move_result g hw hcur hne
  have hcur2 : g.m_candidates = empty_squares g.m_board := hcur
  simp only [candidates] at hne ⊢
  have hlt : ∀ m ∈ g.m_candidates, m < 9 := by
    intro m hm
    rw [hcur2] at hm
    exact empty_squares_lt _ m hm
  have hsorted : List.Pairwise (fun x y => x < y) g.m_candidates := by
    rw [hcur2]
    exact empty_squares_sorted _
  have hcm : c ∈ g.m_candidates := List.getElem?_mem hget
  refine ⟨c, _, hsel, hcm, move_score_eq _ g hw.1 c (hlt c hcm), ?_, ?_⟩
  · intro c1 hc1
    obtain ⟨j, hj⟩ := List.mem_iff_getElem?.1 hc1
    refine ⟨_, move_score_eq _ g hw.1 c1 (hlt c1 hc1), (hbest j c1 hj).1, ?_⟩
    intro heq
    rcases Nat.lt_trichotomy j k with hjk | hjk | hjk
    · have := (hbest j c1 hj).2 hjk
      omega
    · subst hjk
      rw [hj] at hget
      cases hget
      exact le_refl _
    · exact le_of_lt (pairwise_getElem? _ _ hsorted k j c c1 hjk hget hj)
  · intro hall
    have hk0 : k = 0 := by
      by_contra hk
      cases hl : g.m_candidates with
      | nil => exact hne hl
      | cons c0 rest =>
        have h0 : g.m_candidates[0]? = some c0 := by rw [hl]; simp
        have hc0 : c0 ∈ g.m_candidates := List.getElem?_mem h0
        have hlt0 := (hbest 0 c0 h0).2 (by omega)
        have e0 := hall c0 hc0
        have e1 := hall c hcm
        rw [move_score_eq _ g hw.1 c0 (hlt c0 hc0)] at e0
        rw [move_score_eq _ g hw.1 c (hlt c hcm)] at e1
        simp only [Option.some.injEq] at e0 e1
        omega
    subst hk0
    rw [List.head?_eq_getElem?]
    exact hget

/-- Witness of C7: the position after naught 4, cross 0, naught 8. -/
theorem select_move_first_best_witness :
    Reachable (state_after [4, 0, 8]) ∧ evaluate (state_after [4, 0, 8]) = 0 ∧
    candidates (state_after [4, 0, 8]) = [1, 2, 3, 5, 6, 7] ∧
    ∃ c sc, select_move (state_after [4, 0, 8]) = some (c, state_after [4, 0, 8]) ∧
      c ∈ candidates (state_after [4, 0, 8]) ∧
      move_score (candidates (state_after [4, 0, 8])).length (state_after [4, 0, 8]) c
        = some sc ∧
      ∀ c1 ∈ candidates (state_after [4, 0, 8]),
        ∃ sc1, move_score (candidates (state_after [4, 0, 8])).length
            (state_after [4, 0, 8]) c1 = some sc1 ∧ sc1 ≤ sc ∧ (sc1 = sc → c ≤ c1) := by
  refine ⟨reachable_state_after [4, 0, 8] (by decide), by decide, by decide, ?_⟩
  obtain ⟨c, sc, h1, h2, h3, h4, _⟩ :=
    select_move_first_best (state_after [4, 0, 8])
      (reachable_state_after [4, 0, 8] (by decide)) (by decide) (by decide) (by decide)
  exact ⟨c, sc, h1, h2, h3, h4⟩

/-! ## The search against the reference value -/

theorem mem_lines_lt (l : List Nat) (hl : l ∈ lines) (i : Nat) (hi : i ∈ l) : i < 9 := by
  revert i
  revert l
  decide

theorem line_test_naughts (b : Board_t) :
    line_test (bitboards_of b).1 = holds_line b naught := by
  rw [line_test_eq_line_bits]
  simp [line_bits, holds_line, lines, testBit_naughts_bool]

theorem line_test_crosses (b : Board_t) :
    line_test (bitboards_of b).2 = holds_line b cross := by
  rw [line_test_eq_line_bits]
  simp [line_bits, holds_line, lines, testBit_crosses_bool]

theorem board_score_eq_winner (b : Board_t) : board_score b = winner b := by
  unfold board_score winner
  rw [line_test_naughts, line_test_crosses]

theorem empty_squares_nodup (b : Board_t) : (empty_squares b).Nodup :=
  List.Nodup.filter _ (List.nodup_range 9)

theorem empty_squares_board_after (b : Board_t) (s : Nat) (p : Int)
    (hs : s ∈ empty_squares b) (hp : p ≠ 0) :
    empty_squares (board_after b s p) = (empty_squares b).erase s := by
  have hs9 := empty_squares_lt b s hs
  rw [List.Nodup.erase_eq_filter (empty_squares_nodup b)]
  unfold empty_squares
  rw [List.filter_filter]
  apply List.filter_congr
  intro i hi
  rw [cell_board_after b s p i hs9 (List.mem_range.1 hi)]
  by_cases h : i = s
  · subst h; simp [hp]
  · simp [h]

theorem length_empty_squares_board_after (b : Board_t) (s : Nat) (p : Int)
    (hs : s ∈ empty_squares b) (hp : p ≠ 0) :
    (empty_squares (board_after b s p)).length = (empty_squares b).length - 1 := by
  rw [empty_squares_board_after b s p hs hp, List.length_erase_of_mem hs]

theorem player_ne_zero (p : Int) (hp : p = -1 ∨ p = 1) : p ≠ 0 := by
  rcases hp with rfl | rfl <;> decide

theorem neg_player_cases (p : Int) (hp : p = -1 ∨ p = 1) : -p = -1 ∨ -p = 1 := by
  rcases hp with rfl | rfl
  · right; rfl
  · left; rfl

/-- The function `V` satisfies the defining equation of the specification. -/
theorem V_unfold (b : Board_t) (p : Int) (hp : p = -1 ∨ p = 1) : V b p = V_body V b p := by
  unfold V
  cases hlen : (empty_squares b).length with
  | zero =>
    have hnil : empty_squares b = [] := List.length_eq_zero.1 hlen
    simp only [V_fuel, V_body, hnil, if_true]
  | succ k =>
    simp only [V_fuel]
    unfold V_body
    have hmap : (empty_squares b).map (fun s => - V_fuel k (board_after b s p) (-p))
        = (empty_squares b).map
            (fun s => - V_fuel (empty_squares (board_after b s p)).length
              (board_after b s p) (-p)) := by
      apply List.map_congr_left
      intro s hs
      rw [length_empty_squares_board_after b s p hs (player_ne_zero p hp), hlen]
      rfl
    rw [hmap]

theorem foldl_max_step_eq_list_max (x : Int) (xs : List Int) (hx : -1 ≤ x) :
    (x :: xs).foldl max_step (-1) = list_max (x :: xs) := by
  have hf : max_step = max := by
    funext a b; exact max_step_eq_max a b
  simp only [List.foldl_cons, list_max]
  rw [hf, max_eq_right hx]

theorem negamax_value_eq_V (d : Nat) : ∀ (b : Board_t) (p : Int), cells_ok b →
    (p = -1 ∨ p = 1) → (empty_squares b).length = d → negamax_value d b p = V b p := by
  induction d with
  | zero =>
    intro b p _ hp hlen
    have hnil : empty_squares b = [] := List.length_eq_zero.1 hlen
    rw [V_unfold b p hp]
    simp only [negamax_value, V_body, board_score_eq_winner, hnil, if_true]
    by_cases hw : winner b = 0
    · simp [hw]
    · simp [hw]
  | succ d ih =>
    intro b p hk hp hlen
    have hp0 := player_ne_zero p hp
    rw [V_unfold b p hp]
    simp only [negamax_value, V_body, board_score_eq_winner]
    by_cases hw : winner b = 0
    · have hne : empty_squares b ≠ [] := by
        intro h; rw [h] at hlen; simp at hlen
      simp only [hw, mul_zero, ne_eq, not_true_eq_false, if_false, hne]
      rw [board_moves_eq_empty b hk]
      rw [← List.foldl_map (fun m => - negamax_value d (board_after b m p) (p * -1)) max_step]
      have hmap : (empty_squares b).map
            (fun m => - negamax_value d (board_after b m p) (p * -1))
          = (empty_squares b).map (fun s => - V (board_after b s p) (-p)) := by
        apply List.map_congr_left
        intro s hs
        have hpe : p * -1 = -p := by ring
        rw [hpe, ih (board_after b s p) (-p) (cells_ok_board_after b s p hk hp)
          (neg_player_cases p hp)
          (by rw [length_empty_squares_board_after b s p hs hp0, hlen]; rfl)]
      cases hes : empty_squares b with
      | nil => exact absurd hes hne
      | cons s rest =>
        rw [hes] at hmap
        rw [← hmap]
        simp only [List.map_cons]
        apply foldl_max_step_eq_list_max
        have := (negamax_value_range d (board_after b s p) (p * -1) (neg_player p hp)).2
        omega
    · have hpw : p * winner b ≠ 0 := mul_ne_zero hp0 hw
      simp [hw, hpw]

/-! ## Soundness of the bound checker -/

theorem force_eq {α : Type} (n : Nat) (f : Nat → α) : force n f = f n := by
  cases n <;> rfl

theorem mem_board_moves (b : Board_t) (m : Nat) :
    m ∈ board_moves b ↔ m < 9 ∧ cell b m ≠ naught ∧ cell b m ≠ cross := by
  unfold board_moves
  rw [moves_of_mask_eq, List.mem_filter, List.mem_range]
  constructor
  · rintro ⟨h9, h⟩
    rw [testBit_available b m h9] at h
    exact ⟨h9, of_decide_eq_true h⟩
  · rintro ⟨h9, h⟩
    refine ⟨h9, ?_⟩
    rw [testBit_available b m h9]
    exact decide_eq_true h

theorem side_avail (b : Board_t) (p : Int) :
    0x1ff ^^^ ((side_bits b p).1 ||| (side_bits b p).2)
      = 0x1ff ^^^ ((bitboards_of b).1 ||| (bitboards_of b).2) := by
  unfold side_bits
  split
  · rfl
  · simp only [Nat.lor_comm]

theorem avail_bit_iff (b : Board_t) (p : Int) (m : Nat) (hm : m < 9) :
    (0x1ff ^^^ ((side_bits b p).1 ||| (side_bits b p).2)) &&& (1 <<< m) ≠ 0
      ↔ m ∈ board_moves b := by
  rw [side_avail, and_one_shl_ne_zero, testBit_available b m hm, mem_board_moves]
  simp [hm]

theorem bitboards_board_after_naught (b : Board_t) (m : Nat) (hm : m ∈ board_moves b) :
    bitboards_of (board_after b m naught)
      = ((bitboards_of b).1 ||| 1 <<< m, (bitboards_of b).2) := by
  obtain ⟨h9, _, hx⟩ := (mem_board_moves b m).1 hm
  have hnc : naught ≠ cross := by decide
  apply Prod.ext
  · apply Nat.eq_of_testBit_eq
    intro j
    simp only [Nat.testBit_or, testBit_one_shl, testBit_naughts_bool]
    by_cases hj : j < 9
    · rw [cell_board_after b m naught j h9 hj]
      by_cases hjm : j = m
      · subst hjm; simp [hj]
      · have : ¬ m = j := fun h => hjm h.symm
        simp [hjm, this]
    · have : ¬ m = j := by omega
      simp [hj, this]
  · apply Nat.eq_of_testBit_eq
    intro j
    simp only [testBit_crosses_bool]
    by_cases hj : j < 9
    · rw [cell_board_after b m naught j h9 hj]
      by_cases hjm : j = m
      · subst hjm; simp [hx, hnc]
      · simp [hjm]
    · simp [hj]

theorem bitboards_board_after_cross (b : Board_t) (m : Nat) (hm : m ∈ board_moves b) :
    bitboards_of (board_after b m cross)
      = ((bitboards_of b).1, (bitboards_of b).2 ||| 1 <<< m) := by
  obtain ⟨h9, hn, _⟩ := (mem_board_moves b m).1 hm
  have hnc : cross ≠ naught := by decide
  apply Prod.ext
  · apply Nat.eq_of_testBit_eq
    intro j
    simp only [testBit_naughts_bool]
    by_cases hj : j < 9
    · rw [cell_board_after b m cross j h9 hj]
      by_cases hjm : j = m
      · subst hjm; simp [hn, hnc]
      · simp [hjm]
    · simp [hj]
  · apply Nat.eq_of_testBit_eq
    intro j
    simp only [Nat.testBit_or, testBit_one_shl, testBit_crosses_bool]
    by_cases hj : j < 9
    · rw [cell_board_after b m cross j h9 hj]
      by_cases hjm : j = m
      · subst hjm; simp [hj]
      · have : ¬ m = j := fun h => hjm h.symm
        simp [hjm, this]
    · have : ¬ m = j := by omega
      simp [hj, this]

theorem side_bits_board_after (b : Board_t) (p : Int) (m : Nat) (hp : p = -1 ∨ p = 1)
    (hm : m ∈ board_moves b) :
    side_bits (board_after b m p) (p * -1)
      = ((side_bits b p).2, (side_bits b p).1 ||| 1 <<< m) := by
  rcases hp with rfl | rfl
  · have h1 : ((-1 : Int) * -1 = naught) = False := by decide
    have h2 : ((-1 : Int) = naught) = True := by decide
    have h3 := bitboards_board_after_naught b m hm
    unfold naught at h3
    simp only [side_bits, h1, h2, if_true, if_false, h3]
  · have h1 : ((1 : Int) * -1 = naught) = True := by decide
    have h2 : ((1 : Int) = naught) = False := by decide
    have h3 := bitboards_board_after_cross b m hm
    unfold cross at h3
    simp only [side_bits, h1, h2, if_true, if_false, h3]

theorem score_side (b : Board_t) (p : Int) (hp : p = -1 ∨ p = 1) :
    p * board_score b
      = if line_test (side_bits b p).1 then
          (if line_test (side_bits b p).2 then -p else 1)
        else (if line_test (side_bits b p).2 then -1 else 0) := by
  unfold board_score side_bits naught cross
  rcases hp with rfl | rfl
  · simp only [if_true]
    generalize line_test (bitboards_of b).1 = x
    generalize line_test (bitboards_of b).2 = y
    revert x y
    decide
  · have h2 : ((1 : Int) = -1) = False := by decide
    simp only [h2, if_false]
    generalize line_test (bitboards_of b).1 = x
    generalize line_test (bitboards_of b).2 = y
    revert x y
    decide

theorem value_bound_sound (d : Nat) : ∀ (b : Board_t) (p : Int), (p = -1 ∨ p = 1) →
    (value_bound d true (side_bits b p).1 (side_bits b p).2 = true →
      0 ≤ negamax_value d b p) ∧
    (value_bound d false (side_bits b p).1 (side_bits b p).2 = true →
      negamax_value d b p ≤ 0) := by
  induction d with
  | zero =>
    intro b p hp
    simp only [value_bound, negamax_value, score_side b p hp]
    rcases hp with rfl | rfl <;>
      cases line_test (side_bits b _).1 <;> cases line_test (side_bits b _).2 <;> decide
  | succ d ih =>
    intro b p hp
    have hsc := score_side b p hp
    simp only [value_bound, negamax_value, force_eq]
    cases hme : line_test (side_bits b p).1 <;> cases hopp : line_test (side_bits b p).2
    · -- no line on either side: the loop over the moves decides
      rw [hme, hopp] at hsc
      simp only [Bool.false_eq_true, if_false] at hsc
      simp only [hsc, ne_eq, not_true_eq_false, if_false, Bool.false_eq_true]
      constructor
      · intro h
        obtain ⟨m, hmem, hm⟩ := List.any_eq_true.1 h
        rw [Bool.and_eq_true, bne_iff_ne] at hm
        have hm9 : m < 9 := by
          simp only [List.mem_cons, List.mem_singleton, List.not_mem_nil, or_false] at hmem
          omega
        have hmv : m ∈ board_moves b := (avail_bit_iff b p m hm9).1 hm.1
        have hchild := (ih (board_after b m p) (p * -1) (neg_player p hp)).2
        rw [side_bits_board_after b p m hp hmv] at hchild
        have h1 := hchild hm.2
        have h2 := foldl_max_step_ge_mem
          (fun m => - negamax_value d (board_after b m p) (p * -1)) (board_moves b) (-1) m hmv
        simp only at h2
        omega
      · intro h
        apply foldl_max_step_le _ 0 _ _ (by decide)
        intro m hmv
        have hm9 := board_moves_lt b m hmv
        have hmem : m ∈ [0, 1, 2, 3, 4, 5, 6, 7, 8] := by
          simp only [List.mem_cons, List.mem_singleton, List.not_mem_nil, or_false]
          omega
        have hm := List.all_eq_true.1 h m hmem
        rw [Bool.or_eq_true, beq_iff_eq] at hm
        have hbit := (avail_bit_iff b p m hm9).2 hmv
        rcases hm with hm | hm
        · exact absurd hm hbit
        · have hchild := (ih (board_after b m p) (p * -1) (neg_player p hp)).1
          rw [side_bits_board_after b p m hp hmv] at hchild
          have h1 := hchild hm
          omega
    · -- only the other player holds a line
      rw [hme, hopp] at hsc
      simp only [Bool.false_eq_true, if_false, if_true] at hsc
      simp [hsc]
    · -- only the player to move holds a line
      rw [hme, hopp] at hsc
      simp only [Bool.false_eq_true, if_false, if_true] at hsc
      simp [hsc]
    · -- both hold a line: neither bound is claimed
      simp

/-- On the empty grid the search value is `0` at depth nine: neither side can
force a win. -/
theorem negamax_value_init : negamax_value 9 init_state.m_board naught = 0 := by
  have h := value_bound_sound 9 init_state.m_board naught (Or.inl rfl)
  have hs : side_bits init_state.m_board naught = (0, 0) := by decide
  rw [hs] at h
  have h1 : value_bound 9 true 0 0 = true := by decide!
  have h2 : value_bound 9 false 0 0 = true := by decide!
  have := h.1 h1
  have := h.2 h2
  omega

/-! ## The automated player does not lose -/

theorem negamax_value_open (d : Nat) (b : Board_t) (p : Int) (h : board_score b = 0) :
    negamax_value (d + 1) b p
      = (board_moves b).foldl
          (fun max m => max_step max (- negamax_value d (board_after b m p) (p * -1))) (-1) := by
  simp [negamax_value, h]

theorem negamax_value_decided (d : Nat) (b : Board_t) (p : Int)
    (h : p * board_score b ≠ 0) : negamax_value d b p = p * board_score b := by
  cases d with
  | zero => rfl
  | succ d => simp only [negamax_value, if_pos h]

theorem well_formed_generate_moves (g : NaughtsAndCrosses) (hw : well_formed g) :
    well_formed (generate_moves g) := hw

theorem candidates_generate_moves (g : NaughtsAndCrosses) (hw : well_formed g) :
    (generate_moves g).m_candidates = empty_squares g.m_board := by
  rw [generate_moves_eq g hw.1]
  exact board_moves_eq_empty _ hw.2.1

theorem not_losing_init (auto : Int) : not_losing auto init_state := by
  refine ⟨well_formed_init, ?_⟩
  have hlen : (empty_squares init_state.m_board).length = 9 := by decide
  have hp : init_state.m_player = naught := rfl
  rw [hlen, hp, negamax_value_init]
  simp

theorem not_losing_step (auto : Int) (ha : auto = -1 ∨ auto = 1) (g g1 : NaughtsAndCrosses)
    (c : Nat) (hg : not_losing auto g) (hev : evaluate g = 0)
    (hc : c ∈ empty_squares g.m_board)
    (hmk : make_move (generate_moves g) c = some g1)
    (hgood : g.m_player = auto →
      ∀ c1 ∈ empty_squares g.m_board,
        - negamax_value ((empty_squares g.m_board).length - 1)
            (board_after g.m_board c1 g.m_player) (g.m_player * -1)
          ≤ - negamax_value ((empty_squares g.m_board).length - 1)
            (board_after g.m_board c g.m_player) (g.m_player * -1)) :
    not_losing auto g1 := by
  obtain ⟨hw, hv⟩ := hg
  have hw0 := hw
  obtain ⟨hcons, hk, _, hp⟩ := hw
  have hc9 := empty_squares_lt _ c hc
  have hw1 := well_formed_make_move (generate_moves g) g1 c hc9 hw0 hmk
  refine ⟨hw1, ?_⟩
  rw [make_move_eq _ c hc9] at hmk
  cases hmk
  have hscore : board_score g.m_board = 0 := by
    rw [← evaluate_eq_board_score g hcons]; exact hev
  have hlen := length_empty_squares_board_after g.m_board c g.m_player hc
    (player_ne_zero _ hp)
  have hpos : 0 < (empty_squares g.m_board).length := List.length_pos_of_mem hc
  obtain ⟨k, hk1⟩ : ∃ k, (empty_squares g.m_board).length = k + 1 :=
    ⟨(empty_squares g.m_board).length - 1, by omega⟩
  show 0 ≤ auto * (g.m_player * -1) *
    negamax_value (empty_squares (board_after g.m_board c g.m_player)).length
      (board_after g.m_board c g.m_player) (g.m_player * -1)
  rw [hlen, hk1, Nat.add_sub_cancel]
  rw [hk1, Nat.add_sub_cancel] at hgood
  rw [hk1, negamax_value_open k _ _ hscore, board_moves_eq_empty _ hk] at hv
  have hge := foldl_max_step_ge_mem
    (fun m => - negamax_value k (board_after g.m_board m g.m_player) (g.m_player * -1))
    (empty_squares g.m_board) (-1) c hc
  have hatt := foldl_max_step_attained
    (fun m => - negamax_value k (board_after g.m_board m g.m_player) (g.m_player * -1))
    (empty_squares g.m_board) (-1)
  simp only at hge hatt
  generalize (empty_squares g.m_board).foldl
    (fun mx m => max_step mx
      (- negamax_value k (board_after g.m_board m g.m_player) (g.m_player * -1))) (-1) = best
    at hv hge hatt
  generalize hchild : negamax_value k (board_after g.m_board c g.m_player)
    (g.m_player * -1) = child at hge hgood ⊢
  by_cases hturn : g.m_player = auto
  · have hgood2 := hgood hturn
    have hbest : best ≤ - child := by
      rcases hatt with h | ⟨m, hm, h⟩
      · rcases ha with rfl | rfl <;> rw [hturn] at hv <;> omega
      · rw [h]
        exact hgood2 m hm
    rcases ha with rfl | rfl <;> rw [hturn] at hv ⊢ <;> omega
  · rcases ha with rfl | rfl <;> rcases hp with hp | hp <;> rw [hp] at hv hturn ⊢ <;>
      first
        | exact absurd rfl hturn
        | omega

theorem automated_step (auto : Int) (g : NaughtsAndCrosses) (hw : well_formed g)
    (hne : candidates (generate_moves g) ≠ []) :
    ∃ c g2, select_move (generate_moves g) = some (c, generate_moves g) ∧
      c ∈ empty_squares g.m_board ∧ make_move (generate_moves g) c = some g2 ∧
      (g.m_player = auto →
        ∀ c1 ∈ empty_squares g.m_board,
          - negamax_value ((empty_squares g.m_board).length - 1)
              (board_after g.m_board c1 g.m_player) (g.m_player * -1)
            ≤ - negamax_value ((empty_squares g.m_board).length - 1)
              (board_after g.m_board c g.m_player) (g.m_player * -1)) := by
  have hcur := candidates_generate_moves g hw
  obtain ⟨k, c, hsel, hget, hbest⟩ :=
    select_move_result (generate_moves g) (well_formed_generate_moves g hw) hcur hne
  have hc : c ∈ empty_squares g.m_board := by
    rw [← hcur]; exact List.getElem?_mem hget
  refine ⟨c, _, hsel, hc, make_move_eq _ c (empty_squares_lt _ c hc), ?_⟩
  intro _ c1 hc1
  rw [← hcur] at hc1
  obtain ⟨j, hj⟩ := List.mem_iff_getElem?.1 hc1
  have h := (hbest j c1 hj).1
  rw [hcur] at h
  exact h

theorem not_losing_of_game (auto : Int) (ha : auto = -1 ∨ auto = 1) (g : NaughtsAndCrosses)
    (h : GamePlay auto g) : not_losing auto g := by
  induction h with
  | start => exact not_losing_init auto
  | opponent_move g g1 p _ hev hturn hp hmk ih =>
    have hp2 : p ∈ empty_squares g.m_board := by
      rw [← candidates_generate_moves g ih.1]; exact hp
    exact not_losing_step auto ha g g1 p ih hev hp2 hmk (fun h => absurd h hturn)
  | automated_move g g1 g2 c _ hev _ hne hsel hmk ih =>
    obtain ⟨c2, _, hsel2, hc2, _, hgood⟩ := automated_step auto g ih.1 hne
    rw [hsel] at hsel2
    cases hsel2
    exact not_losing_step auto ha g g2 c ih hev hc2 hmk hgood

theorem not_losing_evaluate (auto : Int) (ha : auto = -1 ∨ auto = 1) (g : NaughtsAndCrosses)
    (h : not_losing auto g) : evaluate g ≠ -auto := by
  intro heq
  obtain ⟨⟨hcons, _, _, hp⟩, hv⟩ := h
  rw [evaluate_eq_board_score g hcons] at heq
  have hne : g.m_player * board_score g.m_board ≠ 0 := by
    rw [heq]
    rcases ha with rfl | rfl <;> rcases hp with hp | hp <;> rw [hp] <;> decide
  rw [negamax_value_decided _ _ _ hne, heq] at hv
  rcases ha with rfl | rfl <;> rcases hp with hp | hp <;> rw [hp] at hv <;>
    exact absurd hv (by decide)

/-- C5: in every game from the initial state in which one side moves by
`generate_moves()` and `select_move()` and the other side marks arbitrary empty
squares, with no move made once `evaluate()` is non-zero or the grid is full,
no position (so no final position) is a win for the other side: not for
naughts when the automated player has the crosses (as in `main.cpp`), and not
for crosses when it has the naughts.  The automated move is always defined:
`select_move()` returns a candidate and `make_move` accepts it. -/
theorem automated_player_never_loses (g : NaughtsAndCrosses) :
    (GamePlay cross g → evaluate g ≠ naught) ∧
    (GamePlay naught g → evaluate g ≠ cross) ∧
    (∀ auto, (auto = naught ∨ auto = cross) → GamePlay auto g → evaluate g = 0 →
      current_player g = auto → candidates (generate_moves g) ≠ [] →
      ∃ c g2, select_move (generate_moves g) = some (c, generate_moves g) ∧
        c ∈ candidates (generate_moves g) ∧
        make_move (generate_moves g) c = some g2 ∧ GamePlay auto g2) := by
  refine ⟨?_, ?_, ?_⟩
  · intro h
    exact not_losing_evaluate cross (Or.inr rfl) g (not_losing_of_game cross (Or.inr rfl) g h)
  · intro h
    exact not_losing_evaluate naught (Or.inl rfl) g
      (not_losing_of_game naught (Or.inl rfl) g h)
  · intro auto ha h hev hturn hne
    have hw := (not_losing_of_game auto ha g h).1
    obtain ⟨c, g2, hsel, hc, hmk, _⟩ := automated_step auto g hw hne
    refine ⟨c, g2, hsel, ?_, hmk, GamePlay.automated_move g _ g2 c h hev hturn hne hsel hmk⟩
    unfold candidates
    rw [candidates_generate_moves g hw]
    exact hc

/-- Witness of C5: the game against the automated crosses after naught has
taken the centre. -/
theorem automated_player_never_loses_witness :
    ∃ g1, make_move (generate_moves init_state) 4 = some g1 ∧ GamePlay cross g1 ∧
      evaluate g1 ≠ naught :=
  ⟨_, make_move_eq _ 4 (by decide),
    GamePlay.opponent_move init_state _ 4 GamePlay.start (by decide) (by decide) (by decide)
      (make_move_eq _ 4 (by decide)),
    (automated_player_never_loses _).1
      (GamePlay.opponent_move init_state _ 4 GamePlay.start (by decide) (by decide)
        (by decide) (make_move_eq _ 4 (by decide)))⟩

/-! ## The reference value and forced wins -/

theorem list_max_ge (l : List Int) : ∀ x ∈ l, x ≤ list_max l := by
  cases l with
  | nil => intro x hx; cases hx
  | cons y ys =>
    intro x hx
    have hf : (fun (mx : Int) (m : Int) => max_step mx (id m)) = max := by
      funext a b; exact max_step_eq_max a b
    have h1 := foldl_max_step_ge_init (fun m : Int => id m) ys y
    have h2 := foldl_max_step_ge_mem (fun m : Int => id m) ys y
    rw [hf] at h1 h2
    rcases List.mem_cons.1 hx with rfl | hx
    · exact h1
    · exact h2 x hx

theorem list_max_mem (l : List Int) (hne : l ≠ []) : list_max l ∈ l := by
  cases l with
  | nil => exact absurd rfl hne
  | cons y ys =>
    have hf : (fun (mx : Int) (m : Int) => max_step mx (id m)) = max := by
      funext a b; exact max_step_eq_max a b
    have h := foldl_max_step_attained (fun m : Int => id m) ys y
    rw [hf] at h
    rcases h with h | ⟨m, hm, h⟩
    · show List.foldl max y ys ∈ y :: ys
      rw [h]; exact List.mem_cons_self _ _
    · show List.foldl max y ys ∈ y :: ys
      rw [h]; exact List.mem_cons_of_mem _ hm

theorem winner_cases (b : Board_t) : winner b = -1 ∨ winner b = 0 ∨ winner b = 1 := by
  rw [← board_score_eq_winner]
  exact board_score_cases b

theorem V_body_range (value : Board_t → Int → Int) (b : Board_t) (p : Int)
    (hp : p = -1 ∨ p = 1) (hv : ∀ b1 p1, -1 ≤ value b1 p1 ∧ value b1 p1 ≤ 1) :
    -1 ≤ V_body value b p ∧ V_body value b p ≤ 1 := by
  unfold V_body
  split
  · exact player_mul_score_range p _ hp (winner_cases b)
  · split
    · decide
    · rename_i _ hne
      have hmem := list_max_mem
        ((empty_squares b).map (fun s => - value (board_after b s p) (-p)))
        (by simpa using hne)
      obtain ⟨s, _, hs⟩ := List.mem_map.1 hmem
      rw [← hs]
      have := hv (board_after b s p) (-p)
      omega

theorem V_fuel_range (k : Nat) : ∀ (b : Board_t) (p : Int), (p = -1 ∨ p = 1) →
    -1 ≤ V_fuel k b p ∧ V_fuel k b p ≤ 1 := by
  induction k with
  | zero =>
    intro b p hp
    exact V_body_range _ b p hp (fun _ _ => by decide)
  | succ k ih =>
    intro b p hp
    simp only [V_fuel]
    unfold V_body
    split
    · exact player_mul_score_range p _ hp (winner_cases b)
    · split
      · decide
      · rename_i _ hne
        have hmem := list_max_mem
          ((empty_squares b).map (fun s => - V_fuel k (board_after b s p) (-p)))
          (by simpa using hne)
        obtain ⟨s, _, hs⟩ := List.mem_map.1 hmem
        rw [← hs]
        have := ih (board_after b s p) (-p) (neg_player_cases p hp)
        omega

theorem V_range (b : Board_t) (p : Int) (hp : p = -1 ∨ p = 1) :
    -1 ≤ V b p ∧ V b p ≤ 1 :=
  V_fuel_range _ b p hp

theorem V_decided (b : Board_t) (p : Int) (hp : p = -1 ∨ p = 1) (hw : winner b ≠ 0) :
    V b p = p * winner b := by
  rw [V_unfold b p hp]
  unfold V_body
  rw [if_pos hw]

theorem V_open (b : Board_t) (p : Int) (hp : p = -1 ∨ p = 1) (hw : winner b = 0)
    (hne : empty_squares b ≠ []) :
    V b p = list_max ((empty_squares b).map (fun s => - V (board_after b s p) (-p))) := by
  rw [V_unfold b p hp]
  unfold V_body
  rw [if_neg (by rw [hw]; exact fun h => h rfl), if_neg hne]

theorem forces_of_V (n : Nat) : ∀ (b : Board_t) (p : Int), (p = -1 ∨ p = 1) →
    (empty_squares b).length = n →
    (V b p = 1 → Forces p b p) ∧ (V b p = -1 → Forces (-p) b p) := by
  induction n with
  | zero =>
    intro b p hp hlen
    have hnil : empty_squares b = [] := List.length_eq_zero.1 hlen
    by_cases hw : winner b = 0
    · have h0 : V b p = 0 := by
        rw [V_unfold b p hp]; unfold V_body
        rw [if_neg (by rw [hw]; exact fun h => h rfl), if_pos hnil]
      rw [h0]
      exact ⟨fun h => absurd h (by decide), fun h => absurd h (by decide)⟩
    · rw [V_decided b p hp hw]
      constructor
      · intro h
        refine Forces.line b p ?_ (player_ne_zero p hp)
        rcases hp with rfl | rfl <;> rcases winner_cases b with h1 | h1 | h1 <;>
          rw [h1] at h ⊢ <;> first | rfl | exact absurd h (by decide)
      · intro h
        refine Forces.line b p ?_ (player_ne_zero _ (neg_player_cases p hp))
        rcases hp with rfl | rfl <;> rcases winner_cases b with h1 | h1 | h1 <;>
          rw [h1] at h ⊢ <;> first | rfl | exact absurd h (by decide)
  | succ n ih =>
    intro b p hp hlen
    have hp0 := player_ne_zero p hp
    by_cases hw : winner b = 0
    · have hne : empty_squares b ≠ [] := by
        intro h; rw [h] at hlen; simp at hlen
      have hchild : ∀ s ∈ empty_squares b,
          (empty_squares (board_after b s p)).length = n := by
        intro s hs
        rw [length_empty_squares_board_after b s p hs hp0, hlen]; rfl
      rw [V_open b p hp hw hne]
      constructor
      · intro h
        have hmem := list_max_mem
          ((empty_squares b).map (fun s => - V (board_after b s p) (-p)))
          (by simpa using hne)
        rw [h] at hmem
        obtain ⟨s, hs, hval⟩ := List.mem_map.1 hmem
        have hv : V (board_after b s p) (-p) = -1 := by omega
        have hf := (ih (board_after b s p) (-p) (neg_player_cases p hp) (hchild s hs)).2 hv
        rw [neg_neg] at hf
        exact Forces.own_move b p s hw rfl hs hf
      · intro h
        refine Forces.other_move b p hw (by omega) hne ?_
        intro s hs
        have hle := list_max_ge
          ((empty_squares b).map (fun s => - V (board_after b s p) (-p)))
          (- V (board_after b s p) (-p)) (List.mem_map.2 ⟨s, hs, rfl⟩)
        rw [h] at hle
        have hr := V_range (board_after b s p) (-p) (neg_player_cases p hp)
        have hv : V (board_after b s p) (-p) = 1 := by omega
        exact (ih (board_after b s p) (-p) (neg_player_cases p hp) (hchild s hs)).1 hv
    · rw [V_decided b p hp hw]
      constructor
      · intro h
        refine Forces.line b p ?_ (player_ne_zero p hp)
        rcases hp with rfl | rfl <;> rcases winner_cases b with h1 | h1 | h1 <;>
          rw [h1] at h ⊢ <;> first | rfl | exact absurd h (by decide)
      · intro h
        refine Forces.line b p ?_ (player_ne_zero _ (neg_player_cases p hp))
        rcases hp with rfl | rfl <;> rcases winner_cases b with h1 | h1 | h1 <;>
          rw [h1] at h ⊢ <;> first | rfl | exact absurd h (by decide)

theorem V_of_forces (w : Int) (b : Board_t) (p : Int) (h : Forces w b p) :
    (p = -1 ∨ p = 1) → (w = p → V b p = 1) ∧ (w = -p → V b p = -1) := by
  induction h with
  | line b p hw hw0 =>
    intro hp
    have hwin : winner b ≠ 0 := by rw [hw]; exact hw0
    rw [V_decided b p hp hwin, hw]
    constructor
    · intro h; rw [h]; rcases hp with rfl | rfl <;> rfl
    · intro h; rw [h]; rcases hp with rfl | rfl <;> rfl
  | own_move b p s hw hturn hs _ ih =>
    intro hp
    have hne : empty_squares b ≠ [] := List.ne_nil_of_mem hs
    constructor
    · intro _
      have hv := (ih (neg_player_cases p hp)).2 (by rw [hturn, neg_neg])
      have hle := list_max_ge
        ((empty_squares b).map (fun s => - V (board_after b s p) (-p)))
        (- V (board_after b s p) (-p)) (List.mem_map.2 ⟨s, hs, rfl⟩)
      rw [← V_open b p hp hw hne, hv] at hle
      have := (V_range b p hp).2
      omega
    · intro h
      have hp0 := player_ne_zero p hp
      rw [← hturn] at h
      omega
  | other_move b p hw hturn hne _ ih =>
    intro hp
    constructor
    · intro h; exact absurd h.symm hturn
    · intro h
      have hmem := list_max_mem
        ((empty_squares b).map (fun s => - V (board_after b s p) (-p)))
        (by simpa using hne)
      rw [← V_open b p hp hw hne] at hmem
      obtain ⟨s, hs, hval⟩ := List.mem_map.1 hmem
      have hv := (ih s hs (neg_player_cases p hp)).1 h
      omega

/-- The reference value tells who can force a win. -/
theorem V_forced (b : Board_t) (p : Int) (hp : p = -1 ∨ p = 1) :
    (V b p = 1 ↔ Forces p b p) ∧ (V b p = -1 ↔ Forces (-p) b p) ∧
    (V b p = 0 ↔ ¬ Forces p b p ∧ ¬ Forces (-p) b p) := by
  have hf := forces_of_V _ b p hp rfl
  have h1 : V b p = 1 ↔ Forces p b p :=
    ⟨hf.1, fun h => (V_of_forces p b p h hp).1 rfl⟩
  have h2 : V b p = -1 ↔ Forces (-p) b p :=
    ⟨hf.2, fun h => (V_of_forces (-p) b p h hp).2 rfl⟩
  refine ⟨h1, h2, ?_⟩
  rw [← h1, ← h2]
  have := V_range b p hp
  constructor
  · intro h; rw [h]; decide
  · rintro ⟨ha, hb⟩; omega

/-! ## The search returns the reference value -/

/-- C6: for a position with cells in `{-1, 0, +1}`, bitboards derived from
the grid and player to move in `{-1, +1}`, `negamax(d)` with `d` the number of
empty squares returns `V` of the position, where `V` obeys the defining
equation of the reference function (`player * winner` on a complete line, `0`
on a full grid, else the maximum over the empty squares of `-V` one move
later).  The value is `+1` iff the player to move can force a win, `-1` iff
the opponent can, and `0` iff neither can. -/
theorem negamax_returns_game_value (g : NaughtsAndCrosses) (hk : cells_ok g.m_board)
    (hc : consistent g) (hp : g.m_player = -1 ∨ g.m_player = 1) :
    (∃ g1, negamax (empty_squares g.m_board).length g
        = some (V g.m_board g.m_player, g1)) ∧
    V g.m_board g.m_player = V_body V g.m_board g.m_player ∧
    (V g.m_board g.m_player = 1 ↔ Forces g.m_player g.m_board g.m_player) ∧
    (V g.m_board g.m_player = -1 ↔ Forces (- g.m_player) g.m_board g.m_player) ∧
    (V g.m_board g.m_player = 0 ↔
      ¬ Forces g.m_player g.m_board g.m_player ∧
      ¬ Forces (- g.m_player) g.m_board g.m_player) := by
  have hv := negamax_value_eq_V (empty_squares g.m_board).length g.m_board g.m_player
    hk hp rfl
  obtain ⟨cs, hrun⟩ := negamax_run (empty_squares g.m_board).length g hc
  rw [hv] at hrun
  exact ⟨⟨_, hrun⟩, V_unfold _ _ hp, V_forced _ _ hp⟩

/-- Witness of C6: the fixture position, where the player to move wins. -/
theorem negamax_returns_game_value_witness :
    cells_ok fixture.m_board ∧ consistent fixture ∧
    (fixture.m_player = -1 ∨ fixture.m_player = 1) ∧
    ∃ g1, negamax (empty_squares fixture.m_board).length fixture
      = some (V fixture.m_board fixture.m_player, g1) :=
  ⟨by unfold cells_ok; decide, ⟨rfl, rfl⟩, Or.inl rfl,
    (negamax_returns_game_value fixture (by unfold cells_ok; decide) ⟨rfl, rfl⟩
      (Or.inl rfl)).1⟩

/-! ## Claims on `undo_move`, `make_move` and the player to move -/

/-- Counterexample to C11: on the initial state, whose history is empty,
`undo_move()` has no defined outcome (it reads `back()` of an empty vector);
the call is not an operation that completes, with or without an error, and
leaves the state as it was. -/
theorem undo_move_init_undefined :
    init_state.m_history = [] ∧ undo_move init_state = none ∧
      ¬ (undo_move init_state = some init_state) := by
  refine ⟨rfl, rfl, ?_⟩
  intro h
  cases h

/-- C11 (amended): `undo_move()` has a defined outcome exactly when the
history is non-empty; on an empty history the code reads `back()` of an empty
vector without any check, and on a non-empty history it restores the saved
grid, removes it from the history, recomputes the bitboards, negates the
player and keeps the candidate list. -/
theorem undo_move_defined_iff (g : NaughtsAndCrosses) :
    (undo_move g = none ↔ g.m_history = []) ∧
    ((∃ g1, undo_move g = some g1) ↔ g.m_history ≠ []) ∧
    (∀ g1, undo_move g = some g1 →
      g1.m_history ++ [g1.m_board] = g.m_history ∧
      g1.m_naughts = (bitboards_of g1.m_board).1 ∧
      g1.m_crosses = (bitboards_of g1.m_board).2 ∧
      g1.m_player = - g.m_player ∧ g1.m_candidates = g.m_candidates) := by
  refine ⟨?_, ?_, ?_⟩
  · constructor
    · intro h
      rcases List.eq_nil_or_concat g.m_history with hn | ⟨hs, top, hc⟩
      · exact hn
      · rw [List.concat_eq_append] at hc
        rw [undo_move_concat g hs top hc] at h
        cases h
    · exact undo_move_nil g
  · constructor
    · rintro ⟨g1, h⟩ hn
      rw [undo_move_nil g hn] at h
      cases h
    · intro hne
      rcases List.eq_nil_or_concat g.m_history with hn | ⟨hs, top, hc⟩
      · exact absurd hn hne
      · rw [List.concat_eq_append] at hc
        exact ⟨_, undo_move_concat g hs top hc⟩
  · intro g1 h
    obtain ⟨hs, top, hc, rfl⟩ := undo_move_some g g1 h
    refine ⟨hc.symm, rfl, rfl, ?_, rfl⟩
    show g.m_player * -1 = - g.m_player
    ring

/-- Witness of C11 (amended): undoing the first move of a game. -/
theorem undo_move_defined_iff_witness :
    ∃ g1, make_move init_state 4 = some g1 ∧ g1.m_history ≠ [] ∧
      ∃ g2, undo_move g1 = some g2 :=
  ⟨_, make_move_eq init_state 4 (by decide), by simp,
    ((undo_move_defined_iff _).2.1).2 (by simp)⟩

/-- C16: for every state and every square `p` in `0..8`, empty or not,
`make_move(p)` gives the state whose cell `p` holds the previous player, whose
other cells are unchanged, whose history is the previous one with the previous
grid appended, whose bitboards are derived from the new grid, whose player is
negated and whose candidate list is unchanged. -/
theorem make_move_effect (g : NaughtsAndCrosses) (p : Nat) (hp : p < 9) :
    ∃ g1, make_move g p = some g1 ∧
      cell g1.m_board p = g.m_player ∧
      (∀ i, i < 9 → i ≠ p → cell g1.m_board i = cell g.m_board i) ∧
      g1.m_history = g.m_history ++ [g.m_board] ∧
      g1.m_history.length = g.m_history.length + 1 ∧
      g1.m_naughts = (bitboards_of g1.m_board).1 ∧
      g1.m_crosses = (bitboards_of g1.m_board).2 ∧
      g1.m_player = - g.m_player ∧
      g1.m_candidates = g.m_candidates := by
  refine ⟨_, make_move_eq g p hp, ?_, ?_, rfl, by simp, rfl, rfl, ?_, rfl⟩
  · show cell (board_after g.m_board p g.m_player) p = g.m_player
    rw [cell_board_after _ p _ p hp hp, if_pos rfl]
  · intro i hi hne
    show cell (board_after g.m_board p g.m_player) i = cell g.m_board i
    rw [cell_board_after _ p _ i hp hi, if_neg hne]
  · show g.m_player * -1 = - g.m_player
    ring

/-- Witness of C16: a second mark on the centre square, which is occupied. -/
theorem make_move_effect_witness :
    cell (state_after [4]).m_board 4 = naught ∧
    ∃ g1, make_move (state_after [4]) 4 = some g1 ∧ cell g1.m_board 4 = cross := by
  refine ⟨by decide, ?_⟩
  obtain ⟨g1, h1, h2, _⟩ := make_move_effect (state_after [4]) 4 (by decide)
  exact ⟨g1, h1, by rw [h2]; decide⟩

theorem player_parity (g : NaughtsAndCrosses) (hg : Reachable g) :
    g.m_player = if g.m_history.length % 2 = 0 then naught else cross := by
  induction hg with
  | init => rfl
  | make g g1 p _ hp hm ih =>
    rw [make_move_eq g p hp] at hm
    cases hm
    simp only [List.length_append, List.length_singleton]
    rw [ih]
    by_cases h : g.m_history.length % 2 = 0
    · have h2 : ¬ (g.m_history.length + 1) % 2 = 0 := by omega
      rw [if_pos h, if_neg h2]; rfl
    · have h2 : (g.m_history.length + 1) % 2 = 0 := by omega
      rw [if_neg h, if_pos h2]; rfl
  | undo g g1 _ hu ih =>
    obtain ⟨hs, top, hc, rfl⟩ := undo_move_some g g1 hu
    rw [hc] at ih
    simp only [List.length_append, List.length_singleton] at ih
    show g.m_player * -1 = _
    rw [ih]
    by_cases h : hs.length % 2 = 0
    · have h2 : ¬ (hs.length + 1) % 2 = 0 := by omega
      rw [if_pos h, if_neg h2]; rfl
    · have h2 : (hs.length + 1) % 2 = 0 := by omega
      rw [if_neg h, if_pos h2]; rfl
  | update g _ ih => exact ih
  | generate g _ ih => exact ih

/-- C18: in every reachable state the player to move is `-1` or `+1`, and it
is naught (`-1`) when the history has even length and cross (`+1`) when it has
odd length. -/
theorem player_follows_history (g : NaughtsAndCrosses) (hg : Reachable g) :
    (current_player g = -1 ∨ current_player g = 1) ∧
    (g.m_history.length % 2 = 0 → current_player g = naught) ∧
    (g.m_history.length % 2 = 1 → current_player g = cross) := by
  have h := player_parity g hg
  unfold current_player
  refine ⟨(well_formed_of_reachable g hg).2.2.2, ?_, ?_⟩
  · intro he; rw [h, if_pos he]
  · intro ho
    have : ¬ g.m_history.length % 2 = 0 := by omega
    rw [h, if_neg this]

/-- Witness of C18: after three moves it is the turn of cross. -/
theorem player_follows_history_witness :
    Reachable (state_after [4, 0, 8]) ∧
    (state_after [4, 0, 8]).m_history.length % 2 = 1 ∧
    current_player (state_after [4, 0, 8]) = cross :=
  ⟨reachable_state_after [4, 0, 8] (by decide), by decide,
    (player_follows_history (state_after [4, 0, 8])
      (reachable_state_after [4, 0, 8] (by decide))).2.2 (by decide)⟩

/-! ## Claims on the early returns and the range of `negamax` -/

/-- C15: for every state and depth `d`, with the player to move `-1` or `+1`
as the object always has it (the field starts as naught and is only ever
negated, so this holds in every reachable state), if `evaluate()` is non-zero
then `negamax(d)` returns `current_player() * evaluate()` at once and leaves
the whole state, candidate list included, as it was; and `negamax(0)` returns
that product with the state unchanged whatever the position.  The first
conjunct states the early return under the guard of the code itself, a
non-zero product. -/
theorem negamax_early_return (g : NaughtsAndCrosses) (d : Nat) :
    (current_player g * evaluate g ≠ 0 →
      negamax d g = some (current_player g * evaluate g, g)) ∧
    ((current_player g = -1 ∨ current_player g = 1) → evaluate g ≠ 0 →
      negamax d g = some (current_player g * evaluate g, g)) ∧
    negamax 0 g = some (current_player g * evaluate g, g) ∧
    (Reachable g → evaluate g ≠ 0 →
      negamax d g = some (current_player g * evaluate g, g)) := by
  have h1 : current_player g * evaluate g ≠ 0 →
      negamax d g = some (current_player g * evaluate g, g) := by
    intro h
    cases d with
    | zero => rfl
    | succ d => simp only [negamax, if_pos h]
  have h2 : (current_player g = -1 ∨ current_player g = 1) → evaluate g ≠ 0 →
      negamax d g = some (current_player g * evaluate g, g) := by
    intro hp he
    exact h1 (mul_ne_zero (player_ne_zero _ hp) he)
  refine ⟨h1, h2, rfl, ?_⟩
  intro hg he
  exact h2 (well_formed_of_reachable g hg).2.2.2 he

/-- Witness of C15: the full grid `decided_rows`, on which naughts hold the top
row, with cross to move. -/
theorem negamax_early_return_witness :
    (current_player (state_of_rows decided_rows 1) = -1 ∨
      current_player (state_of_rows decided_rows 1) = 1) ∧
    evaluate (state_of_rows decided_rows 1) ≠ 0 ∧
    negamax 5 (state_of_rows decided_rows 1)
      = some (current_player (state_of_rows decided_rows 1)
          * evaluate (state_of_rows decided_rows 1), state_of_rows decided_rows 1) :=
  ⟨Or.inr rfl, by decide,
    (negamax_early_return (state_of_rows decided_rows 1) 5).2.1 (Or.inr rfl) (by decide)⟩

/-- C17: for every state with cells in `{-1, 0, +1}`, bitboards derived from
the grid and player to move in `{-1, +1}`, and every depth `d`, `negamax(d)`
returns, and the value returned is `-1`, `0` or `+1`. -/
theorem negamax_score_in_range (g : NaughtsAndCrosses) (_hk : cells_ok g.m_board)
    (hc : consistent g) (hp : g.m_player = -1 ∨ g.m_player = 1) (d : Nat) :
    ∃ v g1, negamax d g = some (v, g1) ∧ (v = -1 ∨ v = 0 ∨ v = 1) := by
  obtain ⟨cs, h⟩ := negamax_run d g hc
  have hr := negamax_value_range d g.m_board g.m_player hp
  refine ⟨_, _, h, ?_⟩
  omega

/-- Witness of C17: the fixture position searched deeper than its two empty
squares. -/
theorem negamax_score_in_range_witness :
    cells_ok fixture.m_board ∧ consistent fixture ∧
    (fixture.m_player = -1 ∨ fixture.m_player = 1) ∧
    ∃ v g1, negamax 7 fixture = some (v, g1) ∧ (v = -1 ∨ v = 0 ∨ v = 1) :=
  ⟨by unfold cells_ok; decide, ⟨rfl, rfl⟩, Or.inl rfl,
    negamax_score_in_range fixture (by unfold cells_ok; decide) ⟨rfl, rfl⟩ (Or.inl rfl) 7⟩

theorem board_moves_full (b : Board_t)
    (hfull : ∀ i, i < 9 → cell b i = naught ∨ cell b i = cross) : board_moves b = [] := by
  apply List.eq_nil_iff_forall_not_mem.2
  intro m hm
  obtain ⟨h9, hn, hx⟩ := (mem_board_moves b m).1 hm
  rcases hfull m h9 with h | h
  · exact hn h
  · exact hx h

/-- C19: on a position whose nine squares are all occupied and on which
neither player holds a complete line, `negamax(0)` returns `0` and `negamax(d)`
returns `-1` for every `d > 0`: the move list is empty and the start value of
the maximum is returned (the candidate list is left empty). -/
theorem negamax_full_drawn_board (g : NaughtsAndCrosses) (hc : consistent g)
    (hfull : ∀ i, i < 9 → cell g.m_board i = naught ∨ cell g.m_board i = cross)
    (hdraw : holds_line g.m_board naught = false ∧ holds_line g.m_board cross = false) :
    negamax 0 g = some (0, g) ∧
    (∀ d, 0 < d → negamax d g = some (-1, { g with m_candidates := [] })) ∧
    (∀ d, 0 < d → (negamax d g).map Prod.fst ≠ (negamax 0 g).map Prod.fst) := by
  have hev : evaluate g = 0 := by
    rw [evaluate_eq_board_score g hc, board_score_eq_winner]
    unfold winner
    rw [hdraw.1, hdraw.2]
    rfl
  have h0 : negamax 0 g = some (0, g) := by
    simp only [negamax, hev, mul_zero]
  have hd : ∀ d, 0 < d → negamax d g = some (-1, { g with m_candidates := [] }) := by
    intro d hpos
    obtain ⟨k, rfl⟩ : ∃ k, d = k + 1 := ⟨d - 1, by omega⟩
    simp only [negamax, hev, mul_zero, ne_eq, not_true_eq_false, if_false]
    rw [generate_moves_eq g hc, board_moves_full g.m_board hfull]
    rfl
  refine ⟨h0, hd, ?_⟩
  intro d hpos
  rw [hd d hpos, h0]
  simp

/-- Witness of C19: the full grid `O X O / O X X / X O O` with cross to move. -/
theorem negamax_full_drawn_board_witness :
    cells (state_of_rows drawn_rows 1).m_board = [-1, 1, -1, -1, 1, 1, 1, -1, -1] ∧
    negamax 0 (state_of_rows drawn_rows 1) = some (0, state_of_rows drawn_rows 1) ∧
    (negamax 3 (state_of_rows drawn_rows 1)).map Prod.fst = some (-1) := by
  have h := negamax_full_drawn_board (state_of_rows drawn_rows 1) ⟨rfl, rfl⟩
    (by decide) (by decide)
  refine ⟨by decide, h.1, ?_⟩
  rw [h.2.1 3 (by decide)]
  rfl

/-! ## Further claims on `select_move` -/

theorem moves_of_mask_lt (a m : Nat) (h : m ∈ moves_of_mask a) : m < 9 := by
  rw [moves_of_mask_eq] at h
  exact List.mem_range.1 (List.mem_filter.1 h).1

theorem candidates_lt_of_reachable (g : NaughtsAndCrosses) (hg : Reachable g) :
    ∀ m ∈ g.m_candidates, m < 9 := by
  induction hg with
  | init => intro m hm; cases hm
  | make g g1 p _ hp hm ih =>
    rw [make_move_eq g p hp] at hm
    cases hm
    exact ih
  | undo g g1 _ hu ih =>
    obtain ⟨hs, top, _, rfl⟩ := undo_move_some g g1 hu
    exact ih
  | update g _ ih => exact ih
  | generate g _ _ =>
    intro m hm
    exact moves_of_mask_lt _ m hm

theorem select_index_lt (l : List Int) (hne : l ≠ []) :
    select_index l 0 (-1) 0 < l.length := by
  rcases select_index_spec l 0 (-1) 0 with ⟨hr, _⟩ | ⟨k, v, hk, hr, _⟩
  · rw [hr]
    exact List.length_pos.2 hne
  · rw [hr, Nat.zero_add]
    obtain ⟨hlt, _⟩ := List.getElem?_eq_some.1 hk
    exact hlt

/-- The outcome of `select_move` on a state with bitboards derived from the
grid and candidates inside the grid. -/
theorem select_move_outcome (g : NaughtsAndCrosses) (hc : consistent g)
    (hlt : ∀ m ∈ g.m_candidates, m < 9) :
    (g.m_candidates = [] → select_move g = none) ∧
    (g.m_candidates ≠ [] → ∃ c, c ∈ g.m_candidates ∧
      select_move g = some (c, { g with m_candidates := board_moves g.m_board })) := by
  have hrun := select_move_run g hc hlt
  constructor
  · intro hnil
    rw [hrun, hnil]
    rfl
  · intro hne
    generalize hf : (fun m => - negamax_value (g.m_candidates.length - 1)
      (board_after g.m_board m g.m_player) (g.m_player * -1)) = f at hrun
    have hidx := select_index_lt (g.m_candidates.map f) (by simpa using hne)
    rw [List.length_map] at hidx
    have hget : g.m_candidates[select_index (g.m_candidates.map f) 0 (-1) 0]?
        = some (g.m_candidates[select_index (g.m_candidates.map f) 0 (-1) 0]) :=
      List.getElem?_eq_getElem hidx
    rw [hget] at hrun
    exact ⟨_, List.getElem?_mem hget, hrun⟩

/-- C12: on a reachable state with a current, non-empty candidate list, two
calls of `select_move()` in succession, the second on the state left by the
first, return the same square. -/
theorem select_move_twice (g : NaughtsAndCrosses) (hg : Reachable g)
    (hcur : candidates g = (List.range 9).filter (fun i => decide (cell g.m_board i = 0)))
    (hne : candidates g ≠ []) :
    ∃ c g1 g2, select_move g = some (c, g1) ∧ select_move g1 = some (c, g2) := by
  obtain ⟨_, c, h, _⟩ := select_move_result g (well_formed_of_reachable g hg) hcur hne
  exact ⟨c, g, g, h, h⟩

/-- Witness of C12: the position after naught 4, cross 0, naught 8. -/
theorem select_move_twice_witness :
    Reachable (state_after [4, 0, 8]) ∧
    candidates (state_after [4, 0, 8]) = [1, 2, 3, 5, 6, 7] ∧
    ∃ c g1 g2, select_move (state_after [4, 0, 8]) = some (c, g1) ∧
      select_move g1 = some (c, g2) :=
  ⟨reachable_state_after [4, 0, 8] (by decide), by decide,
    select_move_twice (state_after [4, 0, 8])
      (reachable_state_after [4, 0, 8] (by decide)) (by decide) (by decide)⟩

/-- C20: on every reachable state `select_move()` returns an element of the
candidate list it was called with when that list is non-empty, an empty square
in `0..8` when the list is current, and it has no defined result (the lookup
`move_list[0]` is out of range) exactly when the list is empty. -/
theorem select_move_returns_candidate (g : NaughtsAndCrosses) (hg : Reachable g) :
    (candidates g ≠ [] → ∃ c g1, select_move g = some (c, g1) ∧ c ∈ candidates g) ∧
    (select_move g = none ↔ candidates g = []) ∧
    (candidates g = (List.range 9).filter (fun i => decide (cell g.m_board i = 0)) →
      ∀ c g1, select_move g = some (c, g1) → c < 9 ∧ cell g.m_board c = 0) := by
  have hw := well_formed_of_reachable g hg
  have hout := select_move_outcome g hw.1 (candidates_lt_of_reachable g hg)
  unfold candidates
  refine ⟨?_, ?_, ?_⟩
  · intro hne
    obtain ⟨c, hc, h⟩ := hout.2 hne
    exact ⟨c, _, h, hc⟩
  · constructor
    · intro hnone
      by_contra hne
      obtain ⟨c, _, h⟩ := hout.2 hne
      rw [h] at hnone
      cases hnone
    · exact hout.1
  · intro hcur c g1 hsel
    by_cases hne : g.m_candidates = []
    · rw [hout.1 hne] at hsel
      cases hsel
    · obtain ⟨c2, hc2, h⟩ := hout.2 hne
      rw [h] at hsel
      cases hsel
      rw [hcur] at hc2
      have hm := List.mem_filter.1 hc2
      exact ⟨List.mem_range.1 hm.1, of_decide_eq_true hm.2⟩

/-- Witness of C20: with the stale, empty candidate list of the initial state
there is no result; after `generate_moves()` there is one. -/
theorem select_move_returns_candidate_witness :
    Reachable init_state ∧ candidates init_state = [] ∧ select_move init_state = none ∧
    Reachable (state_after [4, 0, 8]) ∧ candidates (state_after [4, 0, 8]) ≠ [] ∧
    ∃ c g1, select_move (state_after [4, 0, 8]) = some (c, g1) ∧
      c ∈ candidates (state_after [4, 0, 8]) :=
  ⟨Reachable.init, rfl,
    ((select_move_returns_candidate init_state Reachable.init).2.1).2 rfl,
    reachable_state_after [4, 0, 8] (by decide), by decide,
    (select_move_returns_candidate (state_after [4, 0, 8])
      (reachable_state_after [4, 0, 8] (by decide))).1 (by decide)⟩

/-! ## Legal play never gives both players a line -/

theorem bitboards_after_move (b : Board_t) (m : Nat) (p : Int) (hm : m < 9)
    (he : cell b m = 0) (hp : p = -1 ∨ p = 1) :
    (p = -1 → (bitboards_of (board_after b m p)).2 = (bitboards_of b).2) ∧
    (p = 1 → (bitboards_of (board_after b m p)).1 = (bitboards_of b).1) := by
  have hmem : m ∈ board_moves b := by
    rw [mem_board_moves]
    refine ⟨hm, ?_, ?_⟩ <;> rw [he] <;> decide
  constructor
  · intro h
    subst h
    have := bitboards_board_after_naught b m hmem
    unfold naught at this
    rw [this]
  · intro h
    subst h
    have := bitboards_board_after_cross b m hmem
    unfold cross at this
    rw [this]

theorem legal_play_invariant (g : NaughtsAndCrosses) (hg : LegalPlay g) :
    well_formed g ∧ ¬ (line_test g.m_naughts = true ∧ line_test g.m_crosses = true) := by
  induction hg with
  | init => exact ⟨well_formed_init, by decide⟩
  | move g g1 p _ hev hp hempty hm ih =>
    have hw1 := well_formed_make_move g g1 p hp ih.1 hm
    refine ⟨hw1, ?_⟩
    obtain ⟨⟨hn, hc⟩, _, _, hpl⟩ := ih.1
    rw [make_move_eq g p hp] at hm
    cases hm
    have hno : line_test g.m_naughts = false ∧ line_test g.m_crosses = false := by
      unfold evaluate naught cross at hev
      cases h1 : line_test g.m_naughts <;> cases h2 : line_test g.m_crosses <;>
        simp [h1, h2] at hev ⊢
    have hb := bitboards_after_move g.m_board p g.m_player hp hempty hpl
    rintro ⟨h1, h2⟩
    simp only at h1 h2
    rcases hpl with hpl | hpl
    · rw [hb.1 hpl, ← hc, hno.2] at h2
      cases h2
    · rw [hb.2 hpl, ← hn, hno.1] at h1
      cases h1
  | generate g _ ih => exact ih

/-- C13: in every position reached by legal play the two occupancy sets never
both contain a complete line, so a winner reported by `evaluate()` is the only
player holding a line. -/
theorem legal_play_single_winner (g : NaughtsAndCrosses) (hg : LegalPlay g) :
    ¬ (contains_line g.m_naughts ∧ contains_line g.m_crosses) ∧
    (evaluate g = naught ↔ contains_line g.m_naughts ∧ ¬ contains_line g.m_crosses) ∧
    (evaluate g = cross ↔ contains_line g.m_crosses ∧ ¬ contains_line g.m_naughts) := by
  have h := (legal_play_invariant g hg).2
  rw [← line_test_iff, ← line_test_iff]
  unfold evaluate naught cross
  cases h1 : line_test g.m_naughts <;> cases h2 : line_test g.m_crosses <;>
    simp [h1, h2] at h ⊢

/-- Witness of C13: the position after naught 4 and cross 0. -/
theorem legal_play_single_winner_witness :
    ∃ g1 g2, make_move init_state 4 = some g1 ∧ make_move g1 0 = some g2 ∧ LegalPlay g2 ∧
      ¬ (contains_line g2.m_naughts ∧ contains_line g2.m_crosses) :=
  ⟨_, _, make_move_eq init_state 4 (by decide), make_move_eq _ 0 (by decide),
    LegalPlay.move _ _ 0
      (LegalPlay.move init_state _ 4 LegalPlay.init (by decide) (by decide) (by decide)
        (make_move_eq init_state 4 (by decide)))
      (by decide) (by decide) (by decide) (make_move_eq _ 0 (by decide)),
    (legal_play_single_winner _
      (LegalPlay.move _ _ 0
        (LegalPlay.move init_state _ 4 LegalPlay.init (by decide) (by decide) (by decide)
          (make_move_eq init_state 4 (by decide)))
        (by decide) (by decide) (by decide) (make_move_eq _ 0 (by decide)))).1⟩

/-! ## The calls made by the search -/

theorem negamax_loop_calls_proj
    (recurse_c : NaughtsAndCrosses → Option (Int × NaughtsAndCrosses × List Call))
    (recurse : NaughtsAndCrosses → Option (Int × NaughtsAndCrosses))
    (h : ∀ g, (recurse_c g).map (fun r => (r.1, r.2.1)) = recurse g) :
    ∀ (ms : List Nat) (max : Int) (g : NaughtsAndCrosses),
      (negamax_loop_calls recurse_c ms max g).map (fun r => (r.1, r.2.1))
        = negamax_loop recurse ms max g := by
  intro ms
  induction ms with
  | nil => intro max g; rfl
  | cons m rest ih =>
    intro max g
    simp only [negamax_loop_calls, negamax_loop]
    cases make_move g m with
    | none => rfl
    | some g1 =>
      simp only
      rw [← h g1]
      cases recurse_c g1 with
      | none => rfl
      | some r =>
        obtain ⟨v, g2, calls1⟩ := r
        simp only [Option.map_some']
        cases undo_move g2 with
        | none => rfl
        | some g3 =>
          simp only
          rw [← ih]
          cases negamax_loop_calls recurse_c rest (if max < -v then -v else max) g3 with
          | none => rfl
          | some r2 => rfl

/-- Dropping the list of calls from `negamax_calls` gives `negamax`. -/
theorem negamax_calls_proj (d : Nat) : ∀ g : NaughtsAndCrosses,
    (negamax_calls d g).map (fun r => (r.1, r.2.1)) = negamax d g := by
  induction d with
  | zero => intro g; rfl
  | succ d ih =>
    intro g
    simp only [negamax_calls, negamax]
    split
    · rfl
    · exact negamax_loop_calls_proj (negamax_calls d) (negamax d) ih _ _ _

theorem negamax_loop_calls_run
    (recurse : NaughtsAndCrosses → Option (Int × NaughtsAndCrosses × List Call))
    (hrec : ∀ g, consistent g → cells_ok g.m_board → (g.m_player = -1 ∨ g.m_player = 1) →
      ∃ v cs calls, recurse g = some (v, { g with m_candidates := cs }, calls) ∧
        ∀ c ∈ calls, call_ok c) :
    ∀ (ms : List Nat) (max : Int) (g : NaughtsAndCrosses),
      (∀ m ∈ ms, m ∈ empty_squares g.m_board) →
      consistent g → cells_ok g.m_board → (g.m_player = -1 ∨ g.m_player = 1) →
      ∃ v cs calls, negamax_loop_calls recurse ms max g
          = some (v, { g with m_candidates := cs }, calls) ∧
        ∀ c ∈ calls, call_ok c := by
  intro ms
  induction ms with
  | nil =>
    intro max g _ _ _ _
    exact ⟨max, g.m_candidates, [], rfl, by intro c hc; cases hc⟩
  | cons m rest ih =>
    intro max g hms hc hk hp
    have hm := hms m (List.mem_cons_self _ _)
    have hm9 := empty_squares_lt _ m hm
    have hm0 : cell g.m_board m = 0 := of_decide_eq_true (List.mem_filter.1 hm).2
    obtain ⟨g1, hmk, hc1, hb1, hp1, _⟩ := make_then_undo g hc m hm9 []
    have hk1 : cells_ok g1.m_board := by
      rw [hb1]; exact cells_ok_board_after _ _ _ hk hp
    have hpl1 : g1.m_player = -1 ∨ g1.m_player = 1 := by
      rw [hp1]; exact neg_player _ hp
    obtain ⟨v1, cs1, calls1, hr, hok1⟩ := hrec g1 hc1 hk1 hpl1
    obtain ⟨g1b, hmk2, _, _, _, hun⟩ := make_then_undo g hc m hm9 cs1
    rw [hmk] at hmk2
    cases hmk2
    have hhist : ({ g1 with m_candidates := cs1 } : NaughtsAndCrosses).m_history ≠ [] := by
      intro hnil
      rw [undo_move_nil _ hnil] at hun
      cases hun
    obtain ⟨v, cs, calls2, hrest, hok2⟩ :=
      ih (if max < -v1 then -v1 else max) { g with m_candidates := cs1 }
        (fun x hx => hms x (List.mem_cons_of_mem _ hx)) hc hk hp
    refine ⟨v, cs,
      Call.make m g :: calls1 ++ Call.undo { g1 with m_candidates := cs1 } :: calls2, ?_, ?_⟩
    · simp only [negamax_loop_calls, hmk, hr, hun, hrest]
    · intro c hcmem
      rcases List.mem_cons.1 hcmem with rfl | hcmem
      · exact ⟨hm9, hm0, List.ne_nil_of_mem hm⟩
      · rcases List.mem_append.1 hcmem with h1 | h2
        · exact hok1 c h1
        · rcases List.mem_cons.1 h2 with rfl | h2
          · exact hhist
          · exact hok2 c h2

theorem negamax_calls_run (d : Nat) : ∀ g : NaughtsAndCrosses,
    consistent g → cells_ok g.m_board → (g.m_player = -1 ∨ g.m_player = 1) →
    ∃ v cs calls, negamax_calls d g = some (v, { g with m_candidates := cs }, calls) ∧
      ∀ c ∈ calls, call_ok c := by
  induction d with
  | zero =>
    intro g _ _ _
    exact ⟨_, g.m_candidates, [], rfl, by intro c hc; cases hc⟩
  | succ d ih =>
    intro g hc hk hp
    simp only [negamax_calls]
    split
    · exact ⟨_, g.m_candidates, [], rfl, by intro c hc; cases hc⟩
    · rw [generate_moves_eq g hc]
      exact negamax_loop_calls_run (negamax_calls d) ih (board_moves g.m_board) (-1)
        { g with m_candidates := board_moves g.m_board }
        (by intro m hm; rw [← board_moves_eq_empty _ hk]; exact hm) hc hk hp

/-- C14: for every state with cells in `{-1, 0, +1}`, bitboards derived from
the grid and player to move in `{-1, +1}`, and every depth `d` (also deeper
than the number of empty squares), `negamax(d)` returns; every `make_move` of
the call gets a square in `0..8` that is empty at that moment, on a grid that
is not full, and every `undo_move` finds a non-empty history. -/
theorem negamax_terminates_safely (g : NaughtsAndCrosses) (hk : cells_ok g.m_board)
    (hc : consistent g) (hp : g.m_player = -1 ∨ g.m_player = 1) (d : Nat) :
    ∃ v g1 calls, negamax d g = some (v, g1) ∧
      negamax_calls d g = some (v, g1, calls) ∧ ∀ c ∈ calls, call_ok c := by
  obtain ⟨v, cs, calls, h, hok⟩ := negamax_calls_run d g hc hk hp
  refine ⟨v, _, calls, ?_, h, hok⟩
  rw [← negamax_calls_proj d g, h]
  rfl

/-- Witness of C14: the fixture position searched seven deep, with two empty
squares. -/
theorem negamax_terminates_safely_witness :
    cells_ok fixture.m_board ∧ consistent fixture ∧
    (fixture.m_player = -1 ∨ fixture.m_player = 1) ∧
    (empty_squares fixture.m_board).length = 2 ∧
    ∃ v g1 calls, negamax 7 fixture = some (v, g1) ∧
      negamax_calls 7 fixture = some (v, g1, calls) ∧ ∀ c ∈ calls, call_ok c :=
  ⟨by unfold cells_ok; decide, ⟨rfl, rfl⟩, Or.inl rfl, by decide,
    negamax_terminates_safely fixture (by unfold cells_ok; decide) ⟨rfl, rfl⟩
      (Or.inl rfl) 7⟩

end NaughtsAndCrosses
